import Mathlib

/-!
# Verification of the expo-router file-to-route resolution engine

A shallow embedding of `packages/expo-router/src/global-state/getRoutes.ts`:
the directory-tree builder, synthetic route injection, layout hoisting,
platform-specificity selection, group expansion and dynamic-segment analysis.

JavaScript strings are modelled as Lean `String` (with helper operations on
the underlying character lists mirroring the exact `String.prototype`
semantics used by the source: `replace` with a string pattern replaces the
first occurrence only).  JavaScript `Map`/`Set` (insertion ordered) are
modelled as association lists / lists with insert-if-absent.  Sparse arrays
indexed by specificity are modelled as `List (Option RouteNode)` where
assigning index `i` pads the list with `none` holes up to `i` (this gives
the same `length` and indexing behaviour as a JS array written only through
index assignment).  Thrown exceptions are modelled with `Except String`.
The ambient collaborators `Platform.OS` and `process.env.NODE_ENV` are
explicit parameters (`Env`).  The deferred `loadRoute` closure is not
observable by any property considered here and is omitted from the node
model (`unstable_stripLoadRoute`, which only deletes it, is therefore kept
as an inert flag).
-/

namespace ExpoRouter

/-! ## Character-list string utilities (semantics of the JS operations used) -/

/-- Split a character list on a separator character (semantics of
`String.prototype.split` with a single-character separator). -/
def splitChar (c : Char) : List Char → List (List Char)
  | [] => [[]]
  | x :: xs =>
    let r := splitChar c xs
    if x = c then [] :: r else (x :: r.headD []) :: r.tail

/-- Join lists of characters with a separator character (inverse of `splitChar`,
semantics of `Array.prototype.join`). -/
def joinChar (c : Char) : List (List Char) → List Char
  | [] => []
  | [s] => s
  | s :: ss => s ++ c :: joinChar c ss

/-- Replace the first occurrence of `p` by `r` in `s` (semantics of
`String.prototype.replace` with a string pattern).  An empty pattern matches
at position 0, so the replacement is prepended. -/
def listReplaceFirst (p r : List Char) : List Char → List Char
  | [] => if p = [] then r else []
  | c :: cs =>
    if p.isPrefixOf (c :: cs) then r ++ (c :: cs).drop p.length
    else c :: listReplaceFirst p r cs

/-- Whitespace trimming on character lists (semantics of
`String.prototype.trim`). -/
def trimChars (l : List Char) : List Char :=
  ((l.dropWhile Char.isWhitespace).reverse.dropWhile Char.isWhitespace).reverse

/-- String wrapper for `splitChar`. -/
def splitStr (c : Char) (s : String) : List String :=
  (splitChar c s.data).map List.asString

/-- String wrapper for `joinChar`. -/
def joinStr (c : Char) (l : List String) : String :=
  (joinChar c (l.map String.data)).asString

/-- String wrapper for `listReplaceFirst`: JS `s.replace(p, r)` for a plain
string pattern `p`. -/
def replaceFirst (s p r : String) : String :=
  (listReplaceFirst p.data r.data s.data).asString

/-- String wrapper for `trimChars`: JS `s.trim()`. -/
def strTrim (s : String) : String :=
  (trimChars s.data).asString

/-- JS `s.startsWith(p)`. -/
def strStartsWith (s p : String) : Bool :=
  p.data.isPrefixOf s.data

/-- JS `s.endsWith(p)`. -/
def strEndsWith (s p : String) : Bool :=
  p.data.reverse.isPrefixOf s.data.reverse

/-- Length in characters. -/
def strLength (s : String) : Nat := s.data.length

/-- Drop `n` leading characters. -/
def strDrop (s : String) (n : Nat) : String := (s.data.drop n).asString

/-- Drop `n` trailing characters. -/
def strDropRight (s : String) (n : Nat) : String :=
  (s.data.take (s.data.length - n)).asString

/-- Insert a string into an insertion-ordered set represented as a list
(semantics of JS `Set.prototype.add`). -/
def addUnique (l : List String) (x : String) : List String :=
  if x ∈ l then l else l ++ [x]

/-- Deduplicate keeping the first occurrence of each element (semantics of
`Array.from(new Set([...]))`). -/
def dedupKeepFirst (l : List String) : List String :=
  List.foldl addUnique [] l

/-- Assign index `i` of a sparse array, padding with `none` holes exactly as
JS index assignment extends `Array.prototype.length`. -/
def setSparse {α : Type} : List (Option α) → Nat → α → List (Option α)
  | [], 0, v => [some v]
  | [], n + 1, v => none :: setSparse [] n v
  | _ :: xs, 0, v => some v :: xs
  | x :: xs, n + 1, v => x :: setSparse xs n v

/-- Read index `i` of a sparse array as JS does: out of range gives
`undefined`, modelled as `none`. -/
def getSparse {α : Type} (l : List (Option α)) (i : Nat) : Option α :=
  (l.get? i).join

/-- Look up a key in an insertion-ordered association list (JS
`Map.prototype.get`). -/
def assocGet {α : Type} (l : List (String × α)) (k : String) : Option α :=
  (l.find? (fun p => p.1 = k)).map Prod.snd

/-- Set a key in an insertion-ordered association list: an existing key is
updated in place, a new key is appended (JS `Map.prototype.set`). -/
def assocSet {α : Type} (l : List (String × α)) (k : String) (v : α) :
    List (String × α) :=
  match l with
  | [] => [(k, v)]
  | (k', v') :: rest =>
    if k' = k then (k, v) :: rest else (k', v') :: assocSet rest k v

/-! ## Data model -/

/-- One entry of a route's `dynamic` array (`DynamicConvention` in
`Route.ts`).  The objects built for plain dynamic segments carry no
`notFound` property, i.e. a falsy one, modelled as `false`. -/
structure DynamicConvention where
  name : String
  deep : Bool
  notFound : Bool
deriving DecidableEq, Repr

/-- A node of the route tree (`RouteNode` in `Route.ts`), restricted to the
fields the resolution algorithm reads or writes.  The `loadRoute` closure is
omitted (see the module docstring).  `entryPoints` is optional because
hoisting deletes the field on layout nodes and, under `ignoreEntryPoints`,
on all nodes. -/
inductive RouteNode where
  | mk (contextKey : String) (route : String)
       (dynamic : Option (List DynamicConvention))
       (children : List RouteNode)
       (entryPoints : Option (List String))
       (generated : Bool) (internal : Bool)

def RouteNode.contextKey : RouteNode → String
  | ⟨c, _, _, _, _, _, _⟩ => c

def RouteNode.route : RouteNode → String
  | ⟨_, r, _, _, _, _, _⟩ => r

def RouteNode.dynamic : RouteNode → Option (List DynamicConvention)
  | ⟨_, _, d, _, _, _, _⟩ => d

def RouteNode.children : RouteNode → List RouteNode
  | ⟨_, _, _, ch, _, _, _⟩ => ch

def RouteNode.entryPoints : RouteNode → Option (List String)
  | ⟨_, _, _, _, e, _, _⟩ => e

def RouteNode.generated : RouteNode → Bool
  | ⟨_, _, _, _, _, g, _⟩ => g

def RouteNode.internal : RouteNode → Bool
  | ⟨_, _, _, _, _, _, i⟩ => i

/-- Functional update used to model the in-place mutations / object spreads
performed by the hoister. -/
def RouteNode.update (n : RouteNode) (route : String)
    (dynamic : Option (List DynamicConvention)) (children : List RouteNode)
    (entryPoints : Option (List String)) : RouteNode :=
  ⟨n.contextKey, route, dynamic, children, entryPoints, n.generated, n.internal⟩

/-- A transient directory-tree node (`DirectoryNode` in `getRoutes.ts`).
`layout` and each `views` value are sparse specificity-indexed arrays;
`views` and `subdirectories` are insertion-ordered maps. -/
inductive DirectoryNode where
  | mk (layout : Option (List (Option RouteNode)))
       (views : List (String × List (Option RouteNode)))
       (subdirectories : List (String × DirectoryNode))

def DirectoryNode.layout : DirectoryNode → Option (List (Option RouteNode))
  | ⟨l, _, _⟩ => l

def DirectoryNode.views : DirectoryNode → List (String × List (Option RouteNode))
  | ⟨_, v, _⟩ => v

def DirectoryNode.subdirectories : DirectoryNode → List (String × DirectoryNode)
  | ⟨_, _, s⟩ => s

/-- The empty directory node created by the builder. -/
def emptyDir : DirectoryNode := ⟨none, [], []⟩

/-- The configuration surface of `getRoutes` (`Options`).  `ignore` entries
are regexes in the source; an entry is modelled as its decision function on
file paths.  `ignoreRequireErrors` and `unstable_stripLoadRoute` only affect
the omitted `loadRoute` closure and are inert here. -/
structure Options where
  ignore : List (String → Bool) := []
  preserveApiRoutes : Bool := false
  ignoreRequireErrors : Bool := false
  ignoreEntryPoints : Bool := false
  unstable_platformExtensions : Bool := false
  unstable_stripLoadRoute : Bool := false
  unstable_alwaysIncludeSitemap : Bool := false
  unstable_improvedErrorMessages : Bool := false

/-- The ambient collaborators read by the source: `Platform.OS` from
`react-native` and the `process.env.NODE_ENV === 'production'` check. -/
structure Env where
  platformOS : String
  production : Bool

/-- The metadata record returned by `getFileMeta`. -/
structure FileMeta where
  key : String
  name : String
  specificity : Int
  parts : List String
  dirname : String
  filename : String
  isLayout : Bool
  isApi : Bool
  filepathWithoutExtensions : String

/-! ## Basic lemmas about the string utilities -/

/-! ## Matchers

The module `expo-router/src/matchers` is imported by `getRoutes.ts` but its
source is not part of this repository snapshot; the four matchers below are
therefore modelled from the spec's reserved filename conventions. -/

/-- Helper for `matchGroupName`: recognise a character list of the shape
`inner ++ [')']`, returning `inner`. -/
def stripCloseParen : List Char → Option (List Char)
  | [] => none
  | [c] => if c = ')' then some [] else none
  | c :: cs => (stripCloseParen cs).map (fun l => c :: l)

/-- Modelled from the spec: a route-group path segment is a segment fully
wrapped in parentheses (`(name)` / `(a,b,c)`); its inner text must be
non-empty. -/
def groupSegInner (seg : List Char) : Option (List Char) :=
  match seg with
  | [] => none
  | c :: rest =>
    if c = '(' then
      match stripCloseParen rest with
      | some inner => if inner = [] then none else some inner
      | none => none
    else none

/-- Modelled from the spec: `matchGroupName` finds the first path segment
wrapped in group parentheses and returns its inner text (character-list
level). -/
def matchGroupCL (l : List Char) : Option (List Char) :=
  (splitChar '/' l).findSome? groupSegInner

/-- Modelled from the spec: `matchGroupName` from `expo-router/src/matchers`
(the file is not part of this snapshot): the inner text of the first
parenthesised path segment, if any. -/
def matchGroupName (s : String) : Option String :=
  (matchGroupCL s.data).map List.asString

/-- Modelled from the spec: `matchDeepDynamicRouteName` from
`expo-router/src/matchers`: catch-all bracket syntax `[...name]` with a
non-empty name. -/
def matchDeepDynamicRouteName (s : String) : Option String :=
  if strStartsWith s "[..." && strEndsWith s "]" && decide (6 ≤ strLength s) then
    some (strDropRight (strDrop s 4) 1)
  else none

/-- Modelled from the spec: `matchDynamicName` from
`expo-router/src/matchers`: dynamic bracket syntax `[name]` with a
non-empty name. -/
def matchDynamicName (s : String) : Option String :=
  if strStartsWith s "[" && strEndsWith s "]" && decide (3 ≤ strLength s) then
    some (strDropRight (strDrop s 1) 1)
  else none

/-- Modelled from the spec: `removeSupportedExtensions` from
`expo-router/src/matchers`: strips a trailing recognised script extension
(`.js`, `.jsx`, `.ts`, `.tsx`), together with a directly preceding `+api`
marker when present. -/
def removeSupportedExtensions (name : String) : String :=
  match ["+api.js", "+api.jsx", "+api.ts", "+api.tsx",
         ".js", ".jsx", ".ts", ".tsx"].find? (fun e => strEndsWith name e) with
  | some e => strDropRight name (strLength e)
  | none => name

/-! ## Group expansion (`extrapolateGroups`) -/

/-- Number of commas in a string; the termination measure of the group
expander. -/
def commaCount (s : String) : Nat := s.data.count ','

/-- The body of `extrapolateGroups` from `getRoutes.ts`, with the recursive
call abstracted as `recur`: expand the first comma-separated group of `key`
into one key per member (the `for (const group of groups)` loop is the
`foldlM`, threading the accumulating insertion-ordered result set); a
single-member group is left as-is; duplicate raw member names are a fatal
error. -/
def extrapolateStep
    (recur : String → List String → Except String (List String))
    (key : String) (keys : List String) : Except String (List String) :=
  match matchGroupName key with
  | none => .ok (addUnique keys key)
  | some m =>
    if (dedupKeepFirst (splitStr ',' m)).length ≠ (splitStr ',' m).length then
      .error ("Array syntax cannot contain duplicate group name \"" ++ m ++
        "\" in \"" ++ key ++ "\".")
    else if (splitStr ',' m).length = 1 then .ok (addUnique keys key)
    else (splitStr ',' m).foldlM
      (fun ks g => recur (replaceFirst key m (strTrim g)) ks) keys

/-- The recursion of the source terminates because each substitution
strictly decreases the number of commas (`extrapolate_call_decrease`); here
the recursion is made structural on a `fuel` bound initialised to that
comma count, which provably never runs out
(`extrapolateGroupsAux_fuel_independent` shows the bound is irrelevant, so
the fuel threading does not alter the modelled function). -/
def extrapolateGroupsAux : Nat → String → List String → Except String (List String)
  | 0 => extrapolateStep (fun _ _ => .error "unreachable: comma fuel exhausted")
  | n + 1 => extrapolateStep (extrapolateGroupsAux n)

/-- `extrapolateGroups` proper: run the expansion with its sufficient fuel
bound. -/
def extrapolateGroups (key : String) (keys : List String) :
    Except String (List String) :=
  extrapolateGroupsAux (commaCount key) key keys

/-! ## Filename parser (`getFileMeta`) -/

/-- The fixed set of recognised platform identifiers
(`validPlatforms` in `getRoutes.ts`). -/
def validPlatforms : List String :=
  ["android", "ios", "windows", "osx", "native", "web"]

/-- `key.replace(/^\.\//, '')`: strip one leading `./`. -/
def stripDotSlash (s : String) : String :=
  if strStartsWith s "./" then strDrop s 2 else s

/-- `key.match(/\+api\.[jt]sx?$/)`: the API-route suffix test. -/
def isApiKey (s : String) : Bool :=
  ["+api.js", "+api.jsx", "+api.ts", "+api.tsx"].any (fun e => strEndsWith s e)

/-- `/^\.\/\+html\.[tj]sx?$/`: the always-ignored top-level HTML wrapper. -/
def isHtmlFile (s : String) : Bool :=
  ["./+html.js", "./+html.jsx", "./+html.ts", "./+html.tsx"].contains s

/-- `name.replace(/\/?_layout$/, '')`. -/
def stripLayoutSuffix (s : String) : String :=
  if strEndsWith s "/_layout" then strDropRight s 8
  else if strEndsWith s "_layout" then strDropRight s 7
  else s

/-- `name.replace(new RegExp(`.${platform}$`), '')`: the unescaped regex dot
matches one arbitrary character before the platform suffix, so the suffix is
only stripped (with that character) when something precedes it. -/
def stripPlatformSuffix (name platform : String) : String :=
  if strEndsWith name platform && decide (strLength platform < strLength name) then
    strDropRight name (strLength platform + 1)
  else name

/-- `getFileMeta` from `getRoutes.ts`. -/
def getFileMeta (env : Env) (opts : Options) (key0 : String) :
    Except String FileMeta :=
  let key := stripDotSlash key0
  let parts := splitStr '/' key
  let dirname := joinStr '/' parts.dropLast
  let filename := parts.getLastD ""
  let fpwe := removeSupportedExtensions key
  let fnwe := removeSupportedExtensions filename
  let isLayout := strStartsWith filename "_layout."
  let isApi := isApiKey key
  let name0 := if isLayout then stripLayoutSuffix fpwe else fpwe
  if strStartsWith fnwe "(" && strEndsWith fnwe ")" then
    if opts.unstable_improvedErrorMessages then
      .error ("Invalid route ./" ++ key ++ ". Routes cannot end with `(group)` syntax")
    else
      .error ("Using deprecated Layout Route format: Move `./app/" ++ key ++
        "` to `./app/" ++ fpwe ++ "/_layout.js`")
  else
    let fparts := splitStr '.' fnwe
    let platform := fparts.getLastD ""
    let hasPlatform := validPlatforms.contains platform
    if opts.unstable_platformExtensions && hasPlatform then
      let spec : Int :=
        if platform = env.platformOS then 2
        else if platform = "native" && env.platformOS ≠ "web" then 1
        else -1
      .ok ⟨key, stripPlatformSuffix name0 platform, spec, parts, dirname,
        filename, isLayout, isApi, fpwe⟩
    else if hasPlatform then
      .error "invalid route with platform extension"
    else
      .ok ⟨key, name0, 0, parts, dirname, filename, isLayout, isApi, fpwe⟩

/-! ## Dynamic-segment analysis (`generateDynamic`) -/

/-- `generateDynamic` from `getRoutes.ts`. -/
def generateDynamic (path : String) : Option (List DynamicConvention) :=
  let dyn := (splitStr '/' path).filterMap (fun part =>
    if part = "+not-found" then some ⟨"+not-found", true, true⟩
    else
      match matchDeepDynamicRouteName part with
      | some n => some ⟨n, true, false⟩
      | none =>
        match matchDynamicName part with
        | some n => some ⟨n, false, false⟩
        | none => none)
  if dyn.length = 0 then none else some dyn

/-! ## Most-specific candidate selection (`getMostSpecific`) -/

/-- `getMostSpecific` from `getRoutes.ts`: `routes[routes.length - 1]` wins
unconditionally, but a missing index 0 is a fatal missing-fallback error.
An empty array, or an array whose final slot is a hole, makes the JS
original fault on `undefined`; that is modelled as a generic error (such an
array is never produced by the builder, which always populates the final
slot). -/
def getMostSpecific (routes : List (Option RouteNode)) : Except String RouteNode :=
  match routes.getLast? with
  | some (some r) =>
    if (getSparse routes 0).isSome then .ok r
    else .error (r.contextKey ++ " does not contain a fallback platform route")
  | _ => .error "TypeError: undefined route candidate"

/-! ## Directory tree builder (`getDirectoryTree`) -/

/-- The builder's accumulated state: the two found-anything flags and the
root directory node. -/
structure BuildState where
  hasRoutes : Bool
  hasLayout : Bool
  directory : DirectoryNode

/-- The ignore list test (`getIgnoreList` + the `ignoreList.some` check):
the HTML wrapper is always ignored, API routes unless preserved, plus the
caller-supplied patterns. -/
def ignoreMatch (opts : Options) (filePath : String) : Bool :=
  isHtmlFile filePath ||
  (!opts.preserveApiRoutes && isApiKey filePath) ||
  opts.ignore.any (fun f => f filePath)

/-- The `RouteNode` object built for one enumerated file. -/
def mkFileRouteNode (filePath : String) (name : String) : RouteNode :=
  ⟨filePath, name, none, [], some [filePath], false, false⟩

/-- `key.replace(meta.filename, '').split('/').filter(Boolean)`: the
directory path owning one expanded key. -/
def dirParts (key filename : String) : List String :=
  (splitStr '/' (replaceFirst key filename "")).filter (fun s => s ≠ "")

/-- Walk (and create as needed) the directory path down to the owning
node and apply a placement action there. -/
def placeInDir (d : DirectoryNode) (parts : List String)
    (f : DirectoryNode → Except String DirectoryNode) :
    Except String DirectoryNode :=
  match parts with
  | [] => f d
  | p :: ps => do
    let sub := (assocGet d.subdirectories p).getD emptyDir
    let sub' ← placeInDir sub ps f
    .ok ⟨d.layout, d.views, assocSet d.subdirectories p sub'⟩

/-- Place a layout node at its specificity slot: an occupied slot is always
a fatal conflict. -/
def placeLayout (filePath : String) (meta : FileMeta) (node : RouteNode)
    (d : DirectoryNode) : Except String DirectoryNode :=
  match getSparse (d.layout.getD []) meta.specificity.toNat with
  | some existing =>
    .error ("The layouts \"" ++ filePath ++ "\" and " ++ existing.contextKey ++
      " conflict in \"" ++ meta.dirname ++ ". Please remove one of these files.")
  | none =>
    .ok ⟨some (setSparse (d.layout.getD []) meta.specificity.toNat node),
      d.views, d.subdirectories⟩

/-- Place a view node at its specificity slot: in production mode the later
file silently overwrites; otherwise an occupied slot is a fatal conflict. -/
def placeView (env : Env) (opts : Options) (filePath : String)
    (meta : FileMeta) (node : RouteNode) (d : DirectoryNode) :
    Except String DirectoryNode :=
  if env.production then
    .ok ⟨d.layout, assocSet d.views meta.name
      (setSparse ((assocGet d.views meta.name).getD [])
        meta.specificity.toNat node), d.subdirectories⟩
  else
    match getSparse ((assocGet d.views meta.name).getD [])
      meta.specificity.toNat with
    | some existing =>
      if opts.unstable_improvedErrorMessages then
        .error ("The routes \"" ++ filePath ++ "\" and " ++ existing.contextKey ++
          " conflict in \"" ++ meta.dirname ++ ". Please remove one of these files.")
      else
        .error ("Multiple files match the route name \"./" ++
          meta.filepathWithoutExtensions ++ "\".")
    | none =>
      .ok ⟨d.layout, assocSet d.views meta.name
        (setSparse ((assocGet d.views meta.name).getD [])
          meta.specificity.toNat node), d.subdirectories⟩

/-- The loop body of `getDirectoryTree`: process one enumerated file. -/
def processFile (env : Env) (opts : Options) (st : BuildState)
    (filePath : String) : Except String BuildState :=
  if ignoreMatch opts filePath then .ok st
  else do
    let meta ← getFileMeta env opts filePath
    if meta.specificity < 0 then .ok st
    else do
      let keys ← extrapolateGroups meta.key []
      let node := mkFileRouteNode filePath meta.name
      if meta.isLayout then do
        let dir' ← keys.foldlM
          (fun d k => placeInDir d (dirParts k meta.filename) (placeLayout filePath meta node))
          st.directory
        .ok ⟨st.hasRoutes, st.hasLayout || decide (0 < keys.length), dir'⟩
      else if meta.isApi then
        -- API routes are currently not placed into the tree (source TODO).
        .ok st
      else do
        let dir' ← keys.foldlM
          (fun d k => placeInDir d (dirParts k meta.filename) (placeView env opts filePath meta node))
          st.directory
        .ok ⟨st.hasRoutes || decide (0 < keys.length), st.hasLayout, dir'⟩

/-- The synthesized default root layout (built when no authored layout maps
to the root directory). -/
def defaultRootLayout : RouteNode :=
  ⟨"./_layout.tsx", "", none, [], some ["expo-router/build/views/Navigator.js"],
    true, false⟩

/-- `getDirectoryTree` from `getRoutes.ts`: fold the enumeration through
`processFile`, then guarantee a root layout. -/
def getDirectoryTree (env : Env) (opts : Options) (files : List String) :
    Except String BuildState := do
  let st ← files.foldlM (processFile env opts) ⟨false, false, emptyDir⟩
  if st.directory.layout.isSome then .ok ⟨st.hasRoutes, st.hasLayout, st.directory⟩
  else .ok ⟨st.hasRoutes, st.hasLayout,
    ⟨some [some defaultRootLayout], st.directory.views, st.directory.subdirectories⟩⟩

/-! ## Synthetic route injection -/

/-- The generated, internal `_sitemap` view node. -/
def sitemapNode : RouteNode :=
  ⟨"./_sitemap.tsx", "_sitemap", none, [],
    some ["expo-router/build/views/Sitemap.js"], true, true⟩

/-- The generated, internal `+not-found` view node. -/
def notFoundNode : RouteNode :=
  ⟨"./+not-found.tsx", "+not-found", some [⟨"+not-found", true, true⟩], [],
    some ["expo-router/build/views/Unmatched.js"], true, true⟩

/-- `appendSitemapRoute` from `getRoutes.ts`. -/
def appendSitemapRoute (d : DirectoryNode) : DirectoryNode :=
  if (assocGet d.views "_sitemap").isSome then d
  else ⟨d.layout, assocSet d.views "_sitemap" [some sitemapNode], d.subdirectories⟩

/-- `appendNotFoundRoute` from `getRoutes.ts`. -/
def appendNotFoundRoute (d : DirectoryNode) : DirectoryNode :=
  if (assocGet d.views "+not-found").isSome then d
  else ⟨d.layout, assocSet d.views "+not-found" [some notFoundNode], d.subdirectories⟩

/-! ## Hoisting (`hoistRoutesToNearestLayout`) -/

/-- Hoist the views of one directory as children of the current parent
layout: pick the most specific candidate, strip the active prefix from its
route, recompute `dynamic`, merge entry points. -/
def hoistViews (opts : Options)
    (vs : List (String × List (Option RouteNode)))
    (ep : List String) (ptr : String) : Except String (List RouteNode) :=
  match vs with
  | [] => .ok []
  | (_, nodes) :: rest => do
    let r ← getMostSpecific nodes
    let name := replaceFirst r.route ptr ""
    let child := RouteNode.update r name (generateDynamic name) r.children
      (if opts.ignoreEntryPoints then none
       else some (dedupKeepFirst (ep ++ r.entryPoints.getD [])))
    let others ← hoistViews opts rest ep ptr
    .ok (child :: others)

mutual

/-- The recursive walk of `hoistRoutesToNearestLayout`, reformulated
functionally: the result is the list of nodes this directory contributes to
its nearest enclosing layout — the rewritten layout node (carrying the
whole subtree) when the directory has a layout, otherwise the directory's
hoisted views followed by its subdirectories' contributions. -/
def hoistDir (opts : Options) (d : DirectoryNode) (entryPoints : List String)
    (pathToRemove : String) : Except String (List RouteNode) :=
  match d with
  | ⟨some arr, views, subs⟩ => do
    let L ← getMostSpecific arr
    let newRoute := replaceFirst L.route pathToRemove ""
    let ptr' := if L.route ≠ "" then L.route ++ "/" else ""
    let ep' := entryPoints ++ L.entryPoints.getD []
    let vc ← hoistViews opts views ep' ptr'
    let sc ← hoistSubdirs opts subs ep' ptr'
    .ok [RouteNode.update L newRoute (generateDynamic newRoute)
      (L.children ++ vc ++ sc) none]
  | ⟨none, views, subs⟩ => do
    let vc ← hoistViews opts views entryPoints pathToRemove
    let sc ← hoistSubdirs opts subs entryPoints pathToRemove
    .ok (vc ++ sc)

/-- Recurse into every subdirectory, concatenating contributions in
insertion order. -/
def hoistSubdirs (opts : Options) (subs : List (String × DirectoryNode))
    (entryPoints : List String) (pathToRemove : String) :
    Except String (List RouteNode) :=
  match subs with
  | [] => .ok []
  | (_, sub) :: rest => do
    let contrib ← hoistDir opts sub entryPoints pathToRemove
    let others ← hoistSubdirs opts rest entryPoints pathToRemove
    .ok (contrib ++ others)

end

/-- `hoistRoutesToNearestLayout` applied at the root: a root without a
layout returns null before touching any children (the defensive branch);
otherwise the hoisted root layout is returned. -/
def hoistRoutesToNearestLayout (d : DirectoryNode) (opts : Options) :
    Except String (Option RouteNode) :=
  match d.layout with
  | none => .ok none
  | some _ => do
    let l ← hoistDir opts d [] ""
    .ok l.head?

/-! ## `getRoutes` -/

/-- `getRoutes` from `getRoutes.ts`.  The Metro context module is modelled
by its key enumeration (module loading is deferred and unobservable here).
`.ok none` is the source's `null` result. -/
def getRoutes (env : Env) (opts : Options) (files : List String) :
    Except String (Option RouteNode) := do
  let st ← getDirectoryTree env opts files
  if !st.hasLayout && !st.hasRoutes then .ok none
  else
    let d1 := if st.hasRoutes || opts.unstable_alwaysIncludeSitemap then
      appendSitemapRoute st.directory else st.directory
    let d2 := appendNotFoundRoute d1
    hoistRoutesToNearestLayout d2 opts

/-! ## Verification auxiliaries -/

/-- Walk the directory tree along a path of segment names. -/
def lookupDir : DirectoryNode → List String → Option DirectoryNode
  | d, [] => some d
  | d, p :: ps =>
    match assocGet d.subdirectories p with
    | some sub => lookupDir sub ps
    | none => none

/-- The layout candidate stored at a `(directory, rank)` slot. -/
def layoutSlot (d : DirectoryNode) (path : List String) (rank : Nat) :
    Option RouteNode :=
  match lookupDir d path with
  | some dir => getSparse (dir.layout.getD []) rank
  | none => none

/-- The view candidate stored at a `(directory, name, rank)` slot. -/
def viewSlot (d : DirectoryNode) (path : List String) (nm : String) (rank : Nat) :
    Option RouteNode :=
  match lookupDir d path with
  | some dir => getSparse ((assocGet dir.views nm).getD []) rank
  | none => none

/-- A context key whose file name carries the reserved layout marker (the
`isLayout` classification of `getFileMeta`, recomputed from the stored
`contextKey`). -/
def isLayoutContextKey (s : String) : Bool :=
  strStartsWith ((splitStr '/' (stripDotSlash s)).getLastD "") "_layout."

/-- The build-phase invariant of the directory tree: every stored layout
candidate is backed by a `_layout.`-named file, and every stored view
candidate under a view name carries that name as its route and is not a
generated node. -/
def BuilderInv (d : DirectoryNode) : Prop :=
  ∀ path dir, lookupDir d path = some dir →
    (∀ rank n, getSparse (dir.layout.getD []) rank = some n →
      isLayoutContextKey n.contextKey = true) ∧
    (∀ nm rank n, getSparse ((assocGet dir.views nm).getD []) rank = some n →
      n.route = nm ∧ n.generated = false)

/-- The one-directory body of `BuilderInv`. -/
def localInv (dir : DirectoryNode) : Prop :=
  (∀ rank n, getSparse (dir.layout.getD []) rank = some n →
    isLayoutContextKey n.contextKey = true) ∧
  (∀ nm rank n, getSparse ((assocGet dir.views nm).getD []) rank = some n →
    n.route = nm ∧ n.generated = false)

/-- Every populated root view candidate under a name carries that name as
its route (the residue of `BuilderInv` surviving synthetic injection). -/
def rootViewsNamed (d : DirectoryNode) : Prop :=
  ∀ nm rank n, getSparse ((assocGet d.views nm).getD []) rank = some n →
    n.route = nm

/-- The enumerated file is a view file the builder will place: not ignored,
parsed successfully, not platform-skipped, neither a layout nor an API
file. -/
def isViewFile (env : Env) (opts : Options) (f : String) : Bool :=
  !ignoreMatch opts f &&
  (match getFileMeta env opts f with
   | .error _ => false
   | .ok meta => !decide (meta.specificity < 0) && !meta.isLayout && !meta.isApi)

/-- The enumerated file places a layout candidate into the root directory:
the exact condition under which processing it can touch the root's layout
slot. -/
def placesLayoutAtRoot (env : Env) (opts : Options) (f : String) : Bool :=
  if ignoreMatch opts f then false
  else
    match getFileMeta env opts f with
    | .error _ => false
    | .ok meta =>
      if meta.specificity < 0 then false
      else if meta.isLayout then
        match extrapolateGroups meta.key [] with
        | .error _ => false
        | .ok keys => keys.any (fun k => (dirParts k meta.filename).isEmpty)
      else false

/-- Occupancy of both kinds of slots can only grow during the build. -/
def SlotsLE (a b : DirectoryNode) : Prop :=
  (∀ path rank n, layoutSlot a path rank = some n →
    (layoutSlot b path rank).isSome = true) ∧
  (∀ path nm rank n, viewSlot a path nm rank = some n →
    (viewSlot b path nm rank).isSome = true)

/-- `e.isOk`. -/
def isOk {α : Type} : Except String α → Bool
  | .ok _ => true
  | .error _ => false

/-- `e.isError`. -/
def isErr {α : Type} : Except String α → Bool
  | .ok _ => false
  | .error _ => true

/-- The enumerated file is a layout file one of whose expanded keys owns
the `(path, rank)` layout slot. -/
def mapsLayoutTo (env : Env) (opts : Options) (f : String) (path : List String)
    (rank : Nat) : Prop :=
  ignoreMatch opts f = false ∧
  ∃ meta keys, getFileMeta env opts f = .ok meta ∧ ¬meta.specificity < 0 ∧
    meta.isLayout = true ∧ extrapolateGroups meta.key [] = .ok keys ∧
    meta.specificity.toNat = rank ∧
    ∃ k ∈ keys, dirParts k meta.filename = path

/-- The enumerated file is a view file one of whose expanded keys owns the
`(path, name, rank)` view slot. -/
def mapsViewTo (env : Env) (opts : Options) (f : String) (path : List String)
    (nm : String) (rank : Nat) : Prop :=
  ignoreMatch opts f = false ∧
  ∃ meta keys, getFileMeta env opts f = .ok meta ∧ ¬meta.specificity < 0 ∧
    meta.isLayout = false ∧ meta.isApi = false ∧
    extrapolateGroups meta.key [] = .ok keys ∧
    meta.name = nm ∧ meta.specificity.toNat = rank ∧
    ∃ k ∈ keys, dirParts k meta.filename = path

/-- A fixed non-production environment on platform `ios` for the concrete
examples. -/
def devEnv : Env := ⟨"ios", false⟩

/-- A fixed production environment on platform `ios`. -/
def prodEnv : Env := ⟨"ios", true⟩

/-- The default options. -/
def defOpts : Options := ⟨[], false, false, false, false, false, false, false⟩

/-- Options with platform extensions enabled. -/
def peOpts : Options := ⟨[], false, false, false, true, false, false, false⟩

/-- Options with the improved error messages enabled. -/
def improvedOpts : Options := ⟨[], false, false, false, false, false, false, true⟩

/-- Options forcing the sitemap injection. -/
def sitemapOpts : Options := ⟨[], false, false, false, false, false, true, false⟩

/-! ## Accessor computation lemmas -/

@[simp] theorem layout_mk (l : Option (List (Option RouteNode)))
    (v : List (String × List (Option RouteNode)))
    (s : List (String × DirectoryNode)) :
    (DirectoryNode.mk l v s).layout = l := rfl

@[simp] theorem views_mk (l : Option (List (Option RouteNode)))
    (v : List (String × List (Option RouteNode)))
    (s : List (String × DirectoryNode)) :
    (DirectoryNode.mk l v s).views = v := rfl

@[simp] theorem subdirectories_mk (l : Option (List (Option RouteNode)))
    (v : List (String × List (Option RouteNode)))
    (s : List (String × DirectoryNode)) :
    (DirectoryNode.mk l v s).subdirectories = s := rfl

@[simp] theorem contextKey_mk (c r : String)
    (dy : Option (List DynamicConvention)) (ch : List RouteNode)
    (ep : Option (List String)) (g i : Bool) :
    (RouteNode.mk c r dy ch ep g i).contextKey = c := rfl

@[simp] theorem route_mk (c r : String)
    (dy : Option (List DynamicConvention)) (ch : List RouteNode)
    (ep : Option (List String)) (g i : Bool) :
    (RouteNode.mk c r dy ch ep g i).route = r := rfl

@[simp] theorem dynamic_mk (c r : String)
    (dy : Option (List DynamicConvention)) (ch : List RouteNode)
    (ep : Option (List String)) (g i : Bool) :
    (RouteNode.mk c r dy ch ep g i).dynamic = dy := rfl

@[simp] theorem children_mk (c r : String)
    (dy : Option (List DynamicConvention)) (ch : List RouteNode)
    (ep : Option (List String)) (g i : Bool) :
    (RouteNode.mk c r dy ch ep g i).children = ch := rfl

@[simp] theorem entryPoints_mk (c r : String)
    (dy : Option (List DynamicConvention)) (ch : List RouteNode)
    (ep : Option (List String)) (g i : Bool) :
    (RouteNode.mk c r dy ch ep g i).entryPoints = ep := rfl

@[simp] theorem generated_mk (c r : String)
    (dy : Option (List DynamicConvention)) (ch : List RouteNode)
    (ep : Option (List String)) (g i : Bool) :
    (RouteNode.mk c r dy ch ep g i).generated = g := rfl

@[simp] theorem internal_mk (c r : String)
    (dy : Option (List DynamicConvention)) (ch : List RouteNode)
    (ep : Option (List String)) (g i : Bool) :
    (RouteNode.mk c r dy ch ep g i).internal = i := rfl

/-! ## Library lemmas about the string and list utilities -/

theorem splitChar_ne_nil (c : Char) (l : List Char) : splitChar c l ≠ [] := by
  cases l with
  | nil => simp [splitChar]
  | cons x xs => simp only [splitChar]; split <;> simp

theorem joinChar_splitChar (c : Char) (l : List Char) :
    joinChar c (splitChar c l) = l := by
  induction l with
  | nil => simp [splitChar, joinChar]
  | cons x xs ih =>
    simp only [splitChar]
    cases h : splitChar c xs with
    | nil => exact absurd h (splitChar_ne_nil c xs)
    | cons s ss =>
      rw [h] at ih
      by_cases hx : x = c
      · subst hx
        rw [if_pos rfl]
        cases ss with
        | nil => simp only [joinChar] at ih ⊢; simp [ih]
        | cons t ts => simp only [joinChar] at ih ⊢; simp [ih]
      · rw [if_neg hx]
        cases ss with
        | nil => simp only [joinChar, List.headD, List.tail] at ih ⊢; simp [ih]
        | cons t ts =>
          simp only [joinChar, List.headD, List.tail, List.cons_append] at ih ⊢
          simp [ih]

/-- A member of a split is a contiguous run of the original list. -/
theorem mem_splitChar_decomp {c : Char} {l seg : List Char}
    (h : seg ∈ splitChar c l) : ∃ pre suf, l = pre ++ seg ++ suf := by
  have hj := joinChar_splitChar c l
  revert hj
  generalize splitChar c l = parts at h ⊢
  intro hj
  subst hj
  induction parts with
  | nil => simp at h
  | cons s ss ih =>
    rcases List.mem_cons.mp h with rfl | hmem
    · cases ss with
      | nil => exact ⟨[], [], by simp [joinChar]⟩
      | cons t ts => exact ⟨[], c :: joinChar c (t :: ts), by simp [joinChar]⟩
    · obtain ⟨pre, suf, hps⟩ := ih hmem
      cases ss with
      | nil => simp at hmem
      | cons t ts =>
        exact ⟨s ++ [c] ++ pre, suf, by simp [joinChar, hps]⟩

/-- A member of a split on `c` does not contain `c`. -/
theorem mem_splitChar_not_mem {c : Char} {l seg : List Char}
    (h : seg ∈ splitChar c l) : c ∉ seg := by
  induction l generalizing seg with
  | nil => simp [splitChar] at h; simp [h]
  | cons x xs ih =>
    simp only [splitChar] at h
    cases hs : splitChar c xs with
    | nil => exact absurd hs (splitChar_ne_nil c xs)
    | cons s ss =>
      rw [hs] at h
      by_cases hx : x = c
      · rw [if_pos hx] at h
        rcases List.mem_cons.mp h with rfl | hmem
        · simp
        · exact ih (hs ▸ hmem)
      · rw [if_neg hx] at h
        simp only [List.headD, List.tail] at h
        rcases List.mem_cons.mp h with rfl | hmem
        · intro hc
          rcases List.mem_cons.mp hc with rfl | hc'
          · exact hx rfl
          · exact ih (hs ▸ List.mem_cons_self s ss) hc'
        · exact ih (hs ▸ List.mem_cons_of_mem s hmem)

/-- If a split has at least two parts, the separator occurs in the list. -/
theorem mem_of_splitChar_length {c : Char} {l : List Char}
    (h : 2 ≤ (splitChar c l).length) : c ∈ l := by
  induction l with
  | nil => simp [splitChar] at h
  | cons x xs ih =>
    simp only [splitChar] at h
    cases hs : splitChar c xs with
    | nil => exact absurd hs (splitChar_ne_nil c xs)
    | cons s ss =>
      rw [hs] at h
      by_cases hx : x = c
      · exact hx ▸ List.mem_cons_self c xs
      · rw [if_neg hx] at h
        simp only [List.headD, List.tail, List.length_cons] at h
        refine List.mem_cons_of_mem x (ih ?_)
        rw [hs]
        simp only [List.length_cons]
        omega

theorem isPrefixOf_iff_append {p l : List Char} :
    p.isPrefixOf l = true ↔ ∃ t, p ++ t = l := by
  induction p generalizing l with
  | nil => simp [List.isPrefixOf]
  | cons a as ih =>
    cases l with
    | nil => simp [List.isPrefixOf]
    | cons b bs =>
      simp only [List.isPrefixOf, Bool.and_eq_true, beq_iff_eq, ih,
        List.cons_append, List.cons.injEq]
      constructor
      · rintro ⟨rfl, t, rfl⟩; exact ⟨t, rfl, rfl⟩
      · rintro ⟨t, rfl, rfl⟩; exact ⟨rfl, t, rfl⟩

/-- `listReplaceFirst` on a list that contains the pattern: the first
occurrence is replaced and nothing else changes. -/
theorem listReplaceFirst_decomp {p r s : List Char}
    (h : ∃ pre suf, s = pre ++ p ++ suf) :
    ∃ pre suf, listReplaceFirst p r s = pre ++ r ++ suf ∧ s = pre ++ p ++ suf := by
  induction s with
  | nil =>
    obtain ⟨pre, suf, hs⟩ := h
    have hp : p = [] := by
      rcases List.append_eq_nil.mp (List.append_eq_nil.mp hs.symm).1 with ⟨_, h2⟩
      exact h2
    subst hp
    refine ⟨[], [], ?_, ?_⟩
    · simp [listReplaceFirst]
    · simp
  | cons c cs ih =>
    by_cases hpre : p.isPrefixOf (c :: cs) = true
    · obtain ⟨t, ht⟩ := isPrefixOf_iff_append.mp hpre
      refine ⟨[], t, ?_, by simp [ht]⟩
      simp only [listReplaceFirst, if_pos hpre, List.nil_append]
      rw [← ht, List.drop_left]
    · obtain ⟨pre, suf, hs⟩ := h
      cases pre with
      | nil =>
        exfalso
        exact hpre (isPrefixOf_iff_append.mpr ⟨suf, by simpa using hs.symm⟩)
      | cons c' pre' =>
        have hc : c' = c := by simpa using congrArg (List.head?) hs.symm
        subst hc
        have hcs : cs = pre' ++ p ++ suf := by simpa using hs
        obtain ⟨pre1, suf1, h1, h2⟩ := ih ⟨pre', suf, hcs⟩
        refine ⟨c' :: pre1, suf1, ?_, by simp [h2]⟩
        simp [listReplaceFirst, hpre, h1]

/-- Replacing an occurrence of a pattern containing a character by a
replacement avoiding it strictly decreases the count of that character. -/
theorem listReplaceFirst_count_lt {p r s : List Char} {c : Char}
    (h : ∃ pre suf, s = pre ++ p ++ suf) (hp : c ∈ p) (hr : c ∉ r) :
    (listReplaceFirst p r s).count c < s.count c := by
  obtain ⟨pre, suf, h1, h2⟩ := listReplaceFirst_decomp (r := r) h
  rw [h1, h2]
  simp only [List.count_append]
  have hpc : 0 < p.count c := List.count_pos_iff.mpr hp
  have hrc : r.count c = 0 := List.count_eq_zero.mpr hr
  omega

/-- Trimming cannot introduce characters. -/
theorem mem_trimChars {c : Char} {l : List Char} (h : c ∈ trimChars l) : c ∈ l := by
  unfold trimChars at h
  rw [List.mem_reverse] at h
  have h1 := ((List.dropWhile_sublist _).mem h)
  rw [List.mem_reverse] at h1
  exact (List.dropWhile_sublist _).mem h1

theorem data_asString (l : List Char) : (List.asString l).data = l := rfl

theorem stripCloseParen_decomp :
    ∀ {l inner : List Char}, stripCloseParen l = some inner → l = inner ++ [')'] := by
  intro l
  induction l with
  | nil => intro inner h; simp [stripCloseParen] at h
  | cons c cs ih =>
    intro inner h
    cases cs with
    | nil =>
      simp only [stripCloseParen] at h
      by_cases hc : c = ')'
      · rw [if_pos hc] at h
        obtain rfl : ([] : List Char) = inner := by simpa using h
        simp [hc]
      · rw [if_neg hc] at h; simp at h
    | cons d ds =>
      simp only [stripCloseParen, Option.map_eq_some'] at h
      obtain ⟨l', hl', rfl⟩ := h
      simp [ih hl']

theorem groupSegInner_decomp {seg inner : List Char}
    (h : groupSegInner seg = some inner) :
    seg = '(' :: inner ++ [')'] ∧ inner ≠ [] := by
  cases seg with
  | nil => simp [groupSegInner] at h
  | cons c rest =>
    simp only [groupSegInner] at h
    by_cases hc : c = '('
    · rw [if_pos hc] at h
      cases hs : stripCloseParen rest with
      | none => rw [hs] at h; simp at h
      | some inner' =>
        rw [hs] at h
        have h' : (if inner' = [] then none else some inner') = some inner := h
        by_cases hi : inner' = []
        · rw [if_pos hi] at h'; simp at h'
        · rw [if_neg hi] at h'
          obtain rfl : inner' = inner := by simpa using h'
          refine ⟨?_, hi⟩
          rw [hc, stripCloseParen_decomp hs]
          simp
    · rw [if_neg hc] at h; simp at h

/-- A successful group match occurs inside the key as a contiguous run. -/
theorem matchGroupName_occurs {key m : String}
    (h : matchGroupName key = some m) :
    ∃ pre suf, key.data = pre ++ m.data ++ suf := by
  simp only [matchGroupName, Option.map_eq_some'] at h
  obtain ⟨mCL, hm, rfl⟩ := h
  obtain ⟨seg, hseg, hg⟩ := List.exists_of_findSome?_eq_some hm
  obtain ⟨hdecomp, -⟩ := groupSegInner_decomp hg
  obtain ⟨pre, suf, hps⟩ := mem_splitChar_decomp hseg
  refine ⟨pre ++ ['('], [')'] ++ suf, ?_⟩
  rw [data_asString, hps, hdecomp]
  simp

theorem splitStr_length_pos (c : Char) (s : String) :
    1 ≤ (splitStr c s).length := by
  have h := splitChar_ne_nil c s.data
  simp only [splitStr, List.length_map]
  exact List.length_pos.mpr h

/-- Substituting a trimmed member for the matched group list strictly
decreases the comma count: the justification of the expander's
termination. -/
theorem extrapolate_call_decrease {key m g : String}
    (hm : matchGroupName key = some m)
    (hlen : 2 ≤ (splitStr ',' m).length)
    (hg : g ∈ splitStr ',' m) :
    commaCount (replaceFirst key m (strTrim g)) < commaCount key := by
  have hocc := matchGroupName_occurs hm
  have hcomma : (',' : Char) ∈ m.data := by
    apply mem_of_splitChar_length
    simpa [splitStr] using hlen
  have hgd : g.data ∈ splitChar ',' m.data := by
    simp only [splitStr, List.mem_map] at hg
    obtain ⟨gCL, hgCL, rfl⟩ := hg
    simpa [data_asString] using hgCL
  have hr : (',' : Char) ∉ (strTrim g).data := by
    intro hc
    have : (',' : Char) ∈ g.data := mem_trimChars (by simpa [strTrim, data_asString] using hc)
    exact mem_splitChar_not_mem hgd this
  have := listReplaceFirst_count_lt (r := (strTrim g).data) hocc hcomma hr
  simpa [commaCount, replaceFirst, data_asString] using this

/-- A key with a multi-member group has at least one comma. -/
theorem commaCount_pos_of_multi {key m : String}
    (hm : matchGroupName key = some m)
    (hlen : 2 ≤ (splitStr ',' m).length) : 1 ≤ commaCount key := by
  obtain ⟨pre, suf, hps⟩ := matchGroupName_occurs hm
  have hcomma : (',' : Char) ∈ m.data := by
    apply mem_of_splitChar_length
    simpa [splitStr] using hlen
  have hk : (',' : Char) ∈ key.data := by
    rw [hps]; simp [hcomma]
  simp only [commaCount]
  have := List.count_pos_iff.mpr hk
  omega

/-- Two recursion bodies that agree on every substituted member key give
the same `extrapolateStep` result. -/
theorem extrapolateStep_congr
    {r1 r2 : String → List String → Except String (List String)} {key : String}
    (h : ∀ m, matchGroupName key = some m → 2 ≤ (splitStr ',' m).length →
      ∀ g ∈ splitStr ',' m, ∀ ks,
        r1 (replaceFirst key m (strTrim g)) ks = r2 (replaceFirst key m (strTrim g)) ks) :
    ∀ keys, extrapolateStep r1 key keys = extrapolateStep r2 key keys := by
  intro keys
  simp only [extrapolateStep]
  cases hm : matchGroupName key with
  | none => rfl
  | some m =>
    by_cases hdup : (dedupKeepFirst (splitStr ',' m)).length ≠ (splitStr ',' m).length
    · simp only [if_pos hdup]
    · simp only [if_neg hdup]
      by_cases hone : (splitStr ',' m).length = 1
      · simp only [if_pos hone]
      · simp only [if_neg hone]
        have hlen : 2 ≤ (splitStr ',' m).length := by
          have := splitStr_length_pos ',' m
          omega
        have inner : ∀ gs : List String, (∀ g ∈ gs, g ∈ splitStr ',' m) → ∀ ks,
            List.foldlM (fun ks g => r1 (replaceFirst key m (strTrim g)) ks) ks gs =
            List.foldlM (fun ks g => r2 (replaceFirst key m (strTrim g)) ks) ks gs := by
          intro gs
          induction gs with
          | nil => intro _ ks; rfl
          | cons g rest ihg =>
            intro hsub ks
            have hg : g ∈ splitStr ',' m := hsub g (List.mem_cons_self g rest)
            simp only [List.foldlM_cons]
            rw [h m hm hlen g hg ks]
            cases r2 (replaceFirst key m (strTrim g)) ks with
            | error e => rfl
            | ok ks' =>
              exact ihg (fun g' hg' => hsub g' (List.mem_cons_of_mem g hg')) ks'
        exact inner (splitStr ',' m) (fun g hg => hg) keys

/-- Any fuel bound at least the comma count gives the same result: the fuel
threading is semantically inert, so `extrapolateGroups` is exactly the
source's recursion. -/
theorem extrapolateGroupsAux_fuel_independent :
    ∀ f1 f2 key keys, commaCount key ≤ f1 → commaCount key ≤ f2 →
      extrapolateGroupsAux f1 key keys = extrapolateGroupsAux f2 key keys := by
  intro f1
  induction f1 using Nat.strong_induction_on with
  | _ f1 IH =>
    intro f2 key keys h1 h2
    cases f1 with
    | zero =>
      cases f2 with
      | zero => rfl
      | succ n2 =>
        simp only [extrapolateGroupsAux]
        apply extrapolateStep_congr
        intro m hm hlen g hg ks
        have := commaCount_pos_of_multi hm hlen
        omega
    | succ n1 =>
      cases f2 with
      | zero =>
        simp only [extrapolateGroupsAux]
        apply extrapolateStep_congr
        intro m hm hlen g hg ks
        have := commaCount_pos_of_multi hm hlen
        omega
      | succ n2 =>
        simp only [extrapolateGroupsAux]
        apply extrapolateStep_congr
        intro m hm hlen g hg ks
        have hlt : commaCount (replaceFirst key m (strTrim g)) < commaCount key :=
          extrapolate_call_decrease hm hlen hg
        exact IH n1 (by omega) n2 _ _ (by omega) (by omega)

theorem foldl_addUnique_of_disjoint :
    ∀ (l acc : List String), l.Nodup → (∀ x ∈ l, x ∉ acc) →
      List.foldl addUnique acc l = acc ++ l := by
  intro l
  induction l with
  | nil => intro acc _ _; simp
  | cons x xs ih =>
    intro acc hnd hdisj
    have hx : x ∉ acc := hdisj x (List.mem_cons_self x xs)
    simp only [List.foldl_cons, addUnique, if_neg hx]
    rw [ih (acc ++ [x]) (List.nodup_cons.mp hnd).2]
    · simp
    · intro y hy
      simp only [List.mem_append, List.mem_singleton]
      push_neg
      exact ⟨fun hc => hdisj y (List.mem_cons_of_mem x hy) hc,
        fun hc => (List.nodup_cons.mp hnd).1 (hc ▸ hy)⟩

theorem dedupKeepFirst_of_nodup {l : List String} (h : l.Nodup) :
    dedupKeepFirst l = l := by
  unfold dedupKeepFirst
  rw [foldl_addUnique_of_disjoint l [] h (by simp)]
  simp

/-- A key whose group match (if any) is a single-member list expands to
itself, whatever the recursion body. -/
theorem extrapolateStep_result_single
    {r : String → List String → Except String (List String)} {key : String}
    (h : ∀ m, matchGroupName key = some m → (splitStr ',' m).length = 1)
    (acc : List String) :
    extrapolateStep r key acc = .ok (addUnique acc key) := by
  unfold extrapolateStep
  cases hm : matchGroupName key with
  | none => rfl
  | some m =>
    have h1 := h m hm
    obtain ⟨g, hg⟩ := List.length_eq_one.mp h1
    simp [hg, dedupKeepFirst, addUnique]

/-- The same fact for the fuelled recursion, any fuel. -/
theorem extrapolateGroupsAux_single {key : String} (fuel : Nat)
    (h : ∀ m, matchGroupName key = some m → (splitStr ',' m).length = 1)
    (acc : List String) :
    extrapolateGroupsAux fuel key acc = .ok (addUnique acc key) := by
  cases fuel with
  | zero => exact extrapolateStep_result_single h acc
  | succ n => exact extrapolateStep_result_single h acc

/-! ## Inversion lemmas for the `Except` pipeline -/

theorem bind_ok_iff {α β : Type} {x : Except String α} {f : α → Except String β}
    {b : β} : (x >>= f = .ok b) ↔ ∃ a, x = .ok a ∧ f a = .ok b := by
  cases x <;> simp [Bind.bind, Except.bind]

theorem bind_error_iff {α β : Type} {x : Except String α}
    {f : α → Except String β} {e : String} :
    (x >>= f = .error e) ↔ x = .error e ∨ ∃ a, x = .ok a ∧ f a = .error e := by
  cases x <;> simp [Bind.bind, Except.bind]

theorem appendSitemapRoute_layout (d : DirectoryNode) :
    (appendSitemapRoute d).layout = d.layout := by
  unfold appendSitemapRoute
  split <;> rfl

theorem appendNotFoundRoute_layout (d : DirectoryNode) :
    (appendNotFoundRoute d).layout = d.layout := by
  unfold appendNotFoundRoute
  split <;> rfl

/-- `getDirectoryTree` always hands over a root with a layout (authored or
synthesized). -/
theorem getDirectoryTree_layout_isSome {env opts files st}
    (h : getDirectoryTree env opts files = .ok st) :
    st.directory.layout.isSome = true := by
  unfold getDirectoryTree at h
  rw [bind_ok_iff] at h
  obtain ⟨st0, _, h⟩ := h
  split at h
  · rename_i hl
    obtain rfl := Except.ok.inj h
    exact hl
  · obtain rfl := Except.ok.inj h
    rfl

/-- Hoisting a directory that owns a layout contributes exactly one node:
the rewritten layout carrying the subtree. -/
theorem hoistDir_layout_shape {opts : Options} {arr v s ep ptr l}
    (h : hoistDir opts ⟨some arr, v, s⟩ ep ptr = .ok l) : ∃ x, l = [x] := by
  simp only [hoistDir] at h
  rw [bind_ok_iff] at h
  obtain ⟨L, _, h⟩ := h
  rw [bind_ok_iff] at h
  obtain ⟨vc, _, h⟩ := h
  rw [bind_ok_iff] at h
  obtain ⟨sc, _, h⟩ := h
  exact ⟨_, (Except.ok.inj h).symm⟩

/-- A non-null `getRoutes` result never comes from a root with a layout
returning an empty contribution. -/
theorem hoistRoot_layout_ne_ok_none {d : DirectoryNode} {opts : Options}
    (hl : d.layout.isSome = true) :
    hoistRoutesToNearestLayout d opts ≠ .ok none := by
  intro h
  cases d with
  | mk lay v s =>
    cases lay with
    | none => simp [DirectoryNode.layout] at hl
    | some arr =>
      simp only [hoistRoutesToNearestLayout, DirectoryNode.layout] at h
      rw [bind_ok_iff] at h
      obtain ⟨l, hdir, h⟩ := h
      obtain ⟨x, rfl⟩ := hoistDir_layout_shape hdir
      exact Option.noConfusion (Except.ok.inj h)

/-! ## Map and sparse-array lemmas -/

theorem assocGet_cons {α : Type} (k0 : String) (v0 : α)
    (rest : List (String × α)) (k' : String) :
    assocGet ((k0, v0) :: rest) k' =
      if k0 = k' then some v0 else assocGet rest k' := by
  simp only [assocGet, List.find?]
  by_cases h : k0 = k'
  · simp [h]
  · simp [h]

theorem assocGet_assocSet {α : Type} (l : List (String × α)) (k k' : String)
    (v : α) :
    assocGet (assocSet l k v) k' = if k' = k then some v else assocGet l k' := by
  induction l with
  | nil =>
    show assocGet [(k, v)] k' = _
    rw [assocGet_cons]
    by_cases h : k' = k
    · rw [if_pos h, if_pos (h.symm)]
    · rw [if_neg h, if_neg (fun hc => h hc.symm)]
  | cons p rest ih =>
    obtain ⟨k0, v0⟩ := p
    by_cases h0 : k0 = k
    · subst h0
      rw [show assocSet ((k0, v0) :: rest) k0 v = (k0, v) :: rest by
        simp [assocSet]]
      rw [assocGet_cons, assocGet_cons]
      by_cases h : k0 = k'
      · subst h
        rw [if_pos rfl, if_pos rfl]
      · rw [if_neg h, if_neg h, if_neg (fun hc => h hc.symm)]
    · simp only [assocSet, if_neg h0]
      rw [assocGet_cons, assocGet_cons]
      by_cases h : k0 = k'
      · subst h
        rw [if_pos rfl, if_pos rfl, if_neg (fun hc => h0 hc)]
      · rw [if_neg h, if_neg h, ih]

theorem getSparse_setSparse_self {α : Type} (l : List (Option α)) (i : Nat)
    (v : α) : getSparse (setSparse l i v) i = some v := by
  induction l generalizing i with
  | nil =>
    induction i with
    | zero => rfl
    | succ n ihn => simpa [setSparse, getSparse, List.get?] using ihn
  | cons x xs ih =>
    cases i with
    | zero => rfl
    | succ n => simpa [setSparse, getSparse, List.get?] using ih n

theorem getSparse_setSparse_other {α : Type} (l : List (Option α)) (i j : Nat)
    (v : α) (h : j ≠ i) :
    getSparse (setSparse l i v) j = getSparse l j := by
  induction l generalizing i j with
  | nil =>
    induction i generalizing j with
    | zero =>
      cases j with
      | zero => exact absurd rfl h
      | succ m => simp [setSparse, getSparse, List.get?]
    | succ n ihn =>
      cases j with
      | zero => simp [setSparse, getSparse, List.get?]
      | succ m =>
        simp only [setSparse, getSparse, List.get?]
        exact ihn m (fun hc => h (by omega))
  | cons x xs ih =>
    cases i with
    | zero =>
      cases j with
      | zero => exact absurd rfl h
      | succ m => simp [setSparse, getSparse, List.get?]
    | succ n =>
      cases j with
      | zero => simp [setSparse, getSparse, List.get?]
      | succ m =>
        simp only [setSparse, getSparse, List.get?]
        exact ih n m (fun hc => h (by omega))

/-! ## Tracking lemmas for `placeInDir` -/

/-- Forward tracking: a directory reachable before a placement is still
reachable after it, with unchanged layout and views unless it is the
placement target, in which case the action relates the two. -/
theorem placeInDir_forward
    {g : DirectoryNode → Except String DirectoryNode}
    (hg : ∀ sub sub', g sub = .ok sub' → sub'.subdirectories = sub.subdirectories) :
    ∀ parts (d d' : DirectoryNode), placeInDir d parts g = .ok d' →
      ∀ path dir, lookupDir d path = some dir →
        ∃ dir', lookupDir d' path = some dir' ∧
          ((dir'.layout = dir.layout ∧ dir'.views = dir.views) ∨
            (path = parts ∧ g dir = .ok dir')) := by
  intro parts
  induction parts with
  | nil =>
    intro d d' hplace path dir hpath
    simp only [placeInDir] at hplace
    cases path with
    | nil =>
      obtain rfl : d = dir := Option.some.inj hpath
      exact ⟨d', by simp [lookupDir], Or.inr ⟨rfl, hplace⟩⟩
    | cons q qs =>
      refine ⟨dir, ?_, Or.inl ⟨rfl, rfl⟩⟩
      simp only [lookupDir] at hpath ⊢
      rw [hg d d' hplace]
      exact hpath
  | cons p ps ih =>
    intro d d' hplace path dir hpath
    simp only [placeInDir] at hplace
    rw [bind_ok_iff] at hplace
    obtain ⟨sub', hsub', hd'⟩ := hplace
    obtain rfl := (Except.ok.inj hd').symm
    cases path with
    | nil =>
      obtain rfl : d = dir := Option.some.inj hpath
      exact ⟨_, rfl, Or.inl ⟨rfl, rfl⟩⟩
    | cons q qs =>
      simp only [lookupDir] at hpath
      by_cases hq : q = p
      · subst hq
        cases hget : assocGet d.subdirectories q with
        | none => rw [hget] at hpath; simp at hpath
        | some sub =>
          rw [hget] at hpath
          obtain ⟨dir', hdir', hrel⟩ := ih sub sub'
            (by rw [hget] at hsub'; simpa using hsub') qs dir hpath
          refine ⟨dir', ?_, ?_⟩
          · simp only [lookupDir, DirectoryNode.subdirectories,
              assocGet_assocSet, if_pos rfl]
            exact hdir'
          · rcases hrel with h | ⟨rfl, hgd⟩
            · exact Or.inl h
            · exact Or.inr ⟨rfl, hgd⟩
      · refine ⟨dir, ?_, Or.inl ⟨rfl, rfl⟩⟩
        simp only [lookupDir, DirectoryNode.subdirectories,
          assocGet_assocSet, if_neg hq]
        exact hpath

/-- The placement target exists after a placement and is the action's
output on the pre-existing (or freshly created) directory. -/
theorem placeInDir_target
    {g : DirectoryNode → Except String DirectoryNode} :
    ∀ parts (d d' : DirectoryNode), placeInDir d parts g = .ok d' →
      ∃ sub sub', g sub = .ok sub' ∧ lookupDir d' parts = some sub' ∧
        (lookupDir d parts = some sub ∨ sub = emptyDir) := by
  intro parts
  induction parts with
  | nil =>
    intro d d' hplace
    exact ⟨d, d', hplace, rfl, Or.inl rfl⟩
  | cons p ps ih =>
    intro d d' hplace
    simp only [placeInDir] at hplace
    rw [bind_ok_iff] at hplace
    obtain ⟨sub', hsub', hd'⟩ := hplace
    obtain rfl := (Except.ok.inj hd').symm
    obtain ⟨a, a', hga, hla, hpre⟩ :=
      ih ((assocGet d.subdirectories p).getD emptyDir) sub' hsub'
    refine ⟨a, a', hga, ?_, ?_⟩
    · simp only [lookupDir, DirectoryNode.subdirectories,
        assocGet_assocSet, if_pos rfl]
      exact hla
    · cases hget : assocGet d.subdirectories p with
      | none =>
        rcases hpre with h | h
        · rw [hget] at h
          simp only [Option.getD_none] at h
          right
          cases ps with
          | nil => exact Option.some.inj h ▸ rfl
          | cons _ _ => simp [lookupDir, emptyDir, assocGet,
              DirectoryNode.subdirectories, List.find?] at h
        · exact Or.inr h
      | some sub0 =>
        rcases hpre with h | h
        · rw [hget] at h
          simp only [Option.getD_some] at h
          left
          simp only [lookupDir, hget]
          exact h
        · exact Or.inr h

/-- Backward tracking: every directory reachable after a placement either
existed before with the same layout and views, is a freshly created empty
directory, or is the placement target produced by the action. -/
theorem placeInDir_backward
    {g : DirectoryNode → Except String DirectoryNode}
    (hg : ∀ sub sub', g sub = .ok sub' → sub'.subdirectories = sub.subdirectories) :
    ∀ parts (d d' : DirectoryNode), placeInDir d parts g = .ok d' →
      ∀ path dir', lookupDir d' path = some dir' →
        (∃ dir, lookupDir d path = some dir ∧
          dir'.layout = dir.layout ∧ dir'.views = dir.views) ∨
        (dir'.layout = none ∧ dir'.views = []) ∨
        (path = parts ∧ ∃ dir, (lookupDir d path = some dir ∨ dir = emptyDir) ∧
          g dir = .ok dir') := by
  intro parts
  induction parts with
  | nil =>
    intro d d' hplace path dir' hpath
    simp only [placeInDir] at hplace
    cases path with
    | nil =>
      obtain rfl : d' = dir' := Option.some.inj hpath
      exact Or.inr (Or.inr ⟨rfl, d, Or.inl rfl, hplace⟩)
    | cons q qs =>
      left
      refine ⟨dir', ?_, rfl, rfl⟩
      simp only [lookupDir] at hpath ⊢
      rw [hg d d' hplace] at hpath
      exact hpath
  | cons p ps ih =>
    intro d d' hplace path dir' hpath
    simp only [placeInDir] at hplace
    rw [bind_ok_iff] at hplace
    obtain ⟨sub', hsub', hd'⟩ := hplace
    obtain rfl := (Except.ok.inj hd').symm
    cases path with
    | nil =>
      obtain rfl : _ = dir' := Option.some.inj hpath
      exact Or.inl ⟨d, rfl, rfl, rfl⟩
    | cons q qs =>
      simp only [lookupDir, DirectoryNode.subdirectories,
        assocGet_assocSet] at hpath
      by_cases hq : q = p
      · rw [if_pos hq] at hpath
        subst hq
        rcases ih _ sub' hsub' qs dir' hpath with
          ⟨dir, hdir, hl, hv⟩ | hfresh | ⟨rfl, dir, hpre, hgd⟩
        · cases hget : assocGet d.subdirectories q with
          | none =>
            rw [hget] at hdir
            simp only [Option.getD_none] at hdir
            right; left
            cases qs with
            | nil =>
              obtain rfl := Option.some.inj hdir
              exact ⟨hl, hv⟩
            | cons _ _ =>
              simp [lookupDir, emptyDir, assocGet,
                DirectoryNode.subdirectories, List.find?] at hdir
          | some sub0 =>
            rw [hget] at hdir
            simp only [Option.getD_some] at hdir
            left
            refine ⟨dir, ?_, hl, hv⟩
            simp only [lookupDir, hget]
            exact hdir
        · exact Or.inr (Or.inl hfresh)
        · right; right
          refine ⟨rfl, dir, ?_, hgd⟩
          rcases hpre with h | h
          · cases hget : assocGet d.subdirectories q with
            | none =>
              rw [hget] at h
              simp only [Option.getD_none] at h
              right
              cases qs with
              | nil => exact (Option.some.inj h).symm
              | cons _ _ =>
                simp [lookupDir, emptyDir, assocGet,
                  DirectoryNode.subdirectories, List.find?] at h
            | some sub0 =>
              rw [hget] at h
              simp only [Option.getD_some] at h
              left
              simp only [lookupDir, hget]
              exact h
          · exact Or.inr h
      · rw [if_neg hq] at hpath
        left
        refine ⟨dir', ?_, rfl, rfl⟩
        simp only [lookupDir]
        exact hpath

/-! ## Local behaviour of the two placement actions -/

theorem placeLayout_ok_elim {fp : String} {meta : FileMeta} {node : RouteNode}
    {d d' : DirectoryNode} (h : placeLayout fp meta node d = .ok d') :
    getSparse (d.layout.getD []) meta.specificity.toNat = none ∧
    d' = ⟨some (setSparse (d.layout.getD []) meta.specificity.toNat node),
      d.views, d.subdirectories⟩ := by
  unfold placeLayout at h
  split at h
  · simp at h
  · rename_i hnone
    exact ⟨hnone, (Except.ok.inj h).symm⟩

theorem placeLayout_error_of_occupied {fp : String} {meta : FileMeta}
    {node x : RouteNode} {d : DirectoryNode}
    (h : getSparse (d.layout.getD []) meta.specificity.toNat = some x) :
    ∃ e, placeLayout fp meta node d = .error e := by
  unfold placeLayout
  rw [h]
  exact ⟨_, rfl⟩

theorem placeView_ok_elim {env : Env} {opts : Options} {fp : String}
    {meta : FileMeta} {node : RouteNode} {d d' : DirectoryNode}
    (h : placeView env opts fp meta node d = .ok d') :
    d' = ⟨d.layout,
      assocSet d.views meta.name
        (setSparse ((assocGet d.views meta.name).getD [])
          meta.specificity.toNat node),
      d.subdirectories⟩ := by
  unfold placeView at h
  split at h
  · exact (Except.ok.inj h).symm
  · split at h
    · split at h <;> simp at h
    · exact (Except.ok.inj h).symm

theorem placeView_error_of_occupied {env : Env} {opts : Options} {fp : String}
    {meta : FileMeta} {node x : RouteNode} {d : DirectoryNode}
    (hprod : env.production = false)
    (h : getSparse ((assocGet d.views meta.name).getD [])
      meta.specificity.toNat = some x) :
    ∃ e, placeView env opts fp meta node d = .error e := by
  unfold placeView
  rw [hprod, h]
  simp only [Bool.false_eq_true, if_false]
  split <;> exact ⟨_, rfl⟩

theorem placeLayout_subdirs {fp : String} {meta : FileMeta} {node : RouteNode}
    {d d' : DirectoryNode} (h : placeLayout fp meta node d = .ok d') :
    d'.subdirectories = d.subdirectories := by
  rw [(placeLayout_ok_elim h).2]
  rfl

theorem placeView_subdirs {env : Env} {opts : Options} {fp : String}
    {meta : FileMeta} {node : RouteNode} {d d' : DirectoryNode}
    (h : placeView env opts fp meta node d = .ok d') :
    d'.subdirectories = d.subdirectories := by
  rw [placeView_ok_elim h]
  rfl

/-- The fields of a successful parse that are branch-independent. -/
theorem getFileMeta_fields {env : Env} {opts : Options} {k : String}
    {meta : FileMeta} (h : getFileMeta env opts k = .ok meta) :
    meta.isLayout = isLayoutContextKey k ∧
    meta.filename = (splitStr '/' (stripDotSlash k)).getLastD "" ∧
    meta.key = stripDotSlash k := by
  simp only [getFileMeta] at h
  split at h
  · split at h <;> simp at h
  · split at h
    · exact ⟨by rw [← Except.ok.inj h]; try rfl, by rw [← Except.ok.inj h]; try rfl,
        by rw [← Except.ok.inj h]; try rfl⟩
    · split at h
      · simp at h
      · exact ⟨by rw [← Except.ok.inj h]; try rfl, by rw [← Except.ok.inj h]; try rfl,
          by rw [← Except.ok.inj h]; try rfl⟩


/-! ## Generic fold lemmas -/

theorem foldlM_preserves {σ α : Type} {P : σ → Prop} {f : σ → α → Except String σ}
    (hf : ∀ s k s', f s k = .ok s' → P s → P s') :
    ∀ l s s', List.foldlM f s l = .ok s' → P s → P s' := by
  intro l
  induction l with
  | nil =>
    intro s s' h hp
    obtain rfl := Except.ok.inj h
    exact hp
  | cons k rest ih =>
    intro s s' h hp
    rw [List.foldlM_cons, bind_ok_iff] at h
    obtain ⟨s1, h1, h2⟩ := h
    exact ih s1 s' h2 (hf s k s1 h1 hp)

theorem foldlM_rel {σ α : Type} {R : σ → σ → Prop} {f : σ → α → Except String σ}
    (hrefl : ∀ s, R s s) (htrans : ∀ a b c, R a b → R b c → R a c)
    (hf : ∀ s k s', f s k = .ok s' → R s s') :
    ∀ l s s', List.foldlM f s l = .ok s' → R s s' := by
  intro l
  induction l with
  | nil =>
    intro s s' h
    obtain rfl := Except.ok.inj h
    exact hrefl s
  | cons k rest ih =>
    intro s s' h
    rw [List.foldlM_cons, bind_ok_iff] at h
    obtain ⟨s1, h1, h2⟩ := h
    exact htrans _ _ _ (hf s k s1 h1) (ih s1 s' h2)

theorem foldlM_member {σ α : Type} [DecidableEq α] {Q : α → σ → Prop}
    {f : σ → α → Except String σ}
    (hmono : ∀ s k s', f s k = .ok s' → ∀ k0, Q k0 s → Q k0 s')
    (hset : ∀ s k s', f s k = .ok s' → Q k s') :
    ∀ l s s', List.foldlM f s l = .ok s' → ∀ k ∈ l, Q k s' := by
  intro l
  induction l with
  | nil => intro s s' _ k hk; simp at hk
  | cons k0 rest ih =>
    intro s s' h k hk
    rw [List.foldlM_cons, bind_ok_iff] at h
    obtain ⟨s1, h1, h2⟩ := h
    rcases List.mem_cons.mp hk with rfl | hmem
    · exact foldlM_preserves (fun s a s' hs => hmono s a s' hs k) rest s1 s' h2
        (hset s k s1 h1)
    · exact ih s1 s' h2 k hmem

theorem addUnique_length (ks : List String) (k : String) :
    ks.length ≤ (addUnique ks k).length ∧ 1 ≤ (addUnique ks k).length := by
  unfold addUnique
  split
  · rename_i hmem
    have hne : ks ≠ [] := by rintro rfl; simp at hmem
    exact ⟨le_refl _, List.length_pos.mpr hne⟩
  · simp [List.length_append]

/-- One expansion step never shrinks the accumulator and always ends
non-empty, given the same for the recursion body. -/
theorem extrapolateStep_length
    {recur : String → List String → Except String (List String)}
    (hrec : ∀ key' acc out, recur key' acc = .ok out →
      acc.length ≤ out.length ∧ 1 ≤ out.length) :
    ∀ key acc out, extrapolateStep recur key acc = .ok out →
      acc.length ≤ out.length ∧ 1 ≤ out.length := by
  intro key acc out h
  unfold extrapolateStep at h
  split at h
  · obtain rfl := Except.ok.inj h
    exact addUnique_length acc key
  · rename_i m hm
    split at h
    · simp at h
    · split at h
      · obtain rfl := Except.ok.inj h
        exact addUnique_length acc key
      · rename_i hdup hone
        have hfold : ∀ gs (ks out : List String),
            List.foldlM (fun ks g => recur (replaceFirst key m (strTrim g)) ks)
              ks gs = .ok out → ks.length ≤ out.length := by
          intro gs
          induction gs with
          | nil =>
            intro ks out hf
            obtain rfl := Except.ok.inj hf
            exact le_refl _
          | cons g rest ihg =>
            intro ks out hf
            rw [List.foldlM_cons, bind_ok_iff] at hf
            obtain ⟨ks1, hk1, hk2⟩ := hf
            exact le_trans (hrec _ _ _ hk1).1 (ihg ks1 out hk2)
        have hlen : 2 ≤ (splitStr ',' m).length := by
          have := splitStr_length_pos ',' m
          omega
        obtain ⟨g0, rest, hgs⟩ : ∃ g0 rest, splitStr ',' m = g0 :: rest := by
          cases hc : splitStr ',' m with
          | nil => rw [hc] at hlen; simp at hlen
          | cons a b => exact ⟨a, b, rfl⟩
        rw [hgs, List.foldlM_cons, bind_ok_iff] at h
        obtain ⟨ks1, hk1, hk2⟩ := h
        have h1 := hrec _ _ _ hk1
        have h2 := hfold rest ks1 out hk2
        exact ⟨le_trans h1.1 h2, le_trans h1.2 h2⟩

/-- A successful expansion never shrinks the accumulator and always ends
non-empty. -/
theorem extrapolateGroupsAux_length :
    ∀ fuel key acc out, extrapolateGroupsAux fuel key acc = .ok out →
      acc.length ≤ out.length ∧ 1 ≤ out.length := by
  intro fuel
  induction fuel with
  | zero =>
    intro key acc out h
    refine extrapolateStep_length ?_ key acc out h
    intro k a o ho
    exact absurd ho (by simp)
  | succ n ihn =>
    intro key acc out h
    exact extrapolateStep_length (fun k a o ho => ihn k a o ho) key acc out h

/-- A successful expansion of one key produces at least one key. -/
theorem extrapolateGroups_length {key : String} {out : List String}
    (h : extrapolateGroups key [] = .ok out) : 1 ≤ out.length :=
  (extrapolateGroupsAux_length (commaCount key) key [] out h).2

theorem ok_bind {α β : Type} (a : α) (f : α → Except String β) :
    ((Except.ok a : Except String α) >>= f) = f a := rfl

theorem error_bind {α β : Type} (e : String) (f : α → Except String β) :
    ((Except.error e : Except String α) >>= f) = .error e := rfl

/-- Slot occupancy grows across a placement whose action grows it
locally. -/
theorem placeInDir_slots_mono
    {g : DirectoryNode → Except String DirectoryNode}
    (hgsub : ∀ sub sub', g sub = .ok sub' → sub'.subdirectories = sub.subdirectories)
    (hgslots : ∀ sub sub', g sub = .ok sub' →
      (∀ rank n, getSparse (sub.layout.getD []) rank = some n →
        (getSparse (sub'.layout.getD []) rank).isSome = true) ∧
      (∀ nm rank n, getSparse ((assocGet sub.views nm).getD []) rank = some n →
        (getSparse ((assocGet sub'.views nm).getD []) rank).isSome = true))
    {d d' : DirectoryNode} {parts : List String}
    (hplace : placeInDir d parts g = .ok d') : SlotsLE d d' := by
  constructor
  · intro path rank n hslot
    unfold layoutSlot at hslot ⊢
    cases hlk : lookupDir d path with
    | none => rw [hlk] at hslot; simp at hslot
    | some dir =>
      rw [hlk] at hslot
      dsimp only at hslot
      obtain ⟨dir', hdir', hrel⟩ :=
        placeInDir_forward hgsub parts d d' hplace path dir hlk
      rw [hdir']
      dsimp only
      rcases hrel with ⟨hl, _⟩ | ⟨_, hgd⟩
      · rw [hl, hslot]; rfl
      · exact (hgslots dir dir' hgd).1 rank n hslot
  · intro path nm rank n hslot
    unfold viewSlot at hslot ⊢
    cases hlk : lookupDir d path with
    | none => rw [hlk] at hslot; simp at hslot
    | some dir =>
      rw [hlk] at hslot
      dsimp only at hslot
      obtain ⟨dir', hdir', hrel⟩ :=
        placeInDir_forward hgsub parts d d' hplace path dir hlk
      rw [hdir']
      dsimp only
      rcases hrel with ⟨_, hv⟩ | ⟨_, hgd⟩
      · rw [hv, hslot]; rfl
      · exact (hgslots dir dir' hgd).2 nm rank n hslot

/-- `placeLayout` grows slot occupancy locally. -/
theorem placeLayout_local_slots {fp : String} {meta : FileMeta}
    {node : RouteNode} (sub sub' : DirectoryNode)
    (h : placeLayout fp meta node sub = .ok sub') :
    (∀ rank n, getSparse (sub.layout.getD []) rank = some n →
      (getSparse (sub'.layout.getD []) rank).isSome = true) ∧
    (∀ nm rank n, getSparse ((assocGet sub.views nm).getD []) rank = some n →
      (getSparse ((assocGet sub'.views nm).getD []) rank).isSome = true) := by
  obtain ⟨-, rfl⟩ := placeLayout_ok_elim h
  constructor
  · intro rank n hs
    simp only [layout_mk, Option.getD_some]
    by_cases hr : rank = meta.specificity.toNat
    · subst hr
      rw [getSparse_setSparse_self]
      rfl
    · rw [getSparse_setSparse_other _ _ _ _ hr, hs]
      rfl
  · intro nm rank n hs
    simp only [views_mk]
    rw [hs]
    rfl

/-- `placeView` grows slot occupancy locally. -/
theorem placeView_local_slots {env : Env} {opts : Options} {fp : String}
    {meta : FileMeta} {node : RouteNode} (sub sub' : DirectoryNode)
    (h : placeView env opts fp meta node sub = .ok sub') :
    (∀ rank n, getSparse (sub.layout.getD []) rank = some n →
      (getSparse (sub'.layout.getD []) rank).isSome = true) ∧
    (∀ nm rank n, getSparse ((assocGet sub.views nm).getD []) rank = some n →
      (getSparse ((assocGet sub'.views nm).getD []) rank).isSome = true) := by
  obtain rfl := placeView_ok_elim h
  constructor
  · intro rank n hs
    simp only [layout_mk]
    rw [hs]
    rfl
  · intro nm rank n hs
    simp only [views_mk, assocGet_assocSet]
    by_cases hnm : nm = meta.name
    · rw [if_pos hnm, Option.getD_some]
      by_cases hr : rank = meta.specificity.toNat
      · subst hr
        rw [getSparse_setSparse_self]
        rfl
      · rw [getSparse_setSparse_other _ _ _ _ hr]
        rw [← hnm, hs]
        rfl
    · rw [if_neg hnm, hs]
      rfl

/-- If the target path already exists and the action fails there, the
placement fails. -/
theorem placeInDir_error_at {g : DirectoryNode → Except String DirectoryNode} :
    ∀ parts (d dir : DirectoryNode) (e : String),
      lookupDir d parts = some dir → g dir = .error e →
      placeInDir d parts g = .error e := by
  intro parts
  induction parts with
  | nil =>
    intro d dir e hlk hg
    obtain rfl := Option.some.inj hlk
    exact hg
  | cons p ps ih =>
    intro d dir e hlk hg
    simp only [lookupDir] at hlk
    cases hget : assocGet d.subdirectories p with
    | none => rw [hget] at hlk; simp at hlk
    | some sub =>
      rw [hget] at hlk
      simp only [placeInDir, hget, Option.getD_some]
      rw [ih sub dir e hlk hg]
      rfl

/-- A total action makes the placement total. -/
theorem placeInDir_ok_of_total {g : DirectoryNode → Except String DirectoryNode}
    (hg : ∀ sub, ∃ sub', g sub = .ok sub') :
    ∀ parts (d : DirectoryNode), ∃ d', placeInDir d parts g = .ok d' := by
  intro parts
  induction parts with
  | nil => intro d; exact hg d
  | cons p ps ih =>
    intro d
    obtain ⟨sub', hsub'⟩ := ih ((assocGet d.subdirectories p).getD emptyDir)
    exact ⟨_, by simp only [placeInDir]; rw [hsub']; rfl⟩

/-- If one member's step always fails under an invariant the other steps
preserve, the fold fails. -/
theorem foldlM_error_of_member {σ α : Type} {Q : σ → Prop}
    {f : σ → α → Except String σ} {k : α}
    (hmono : ∀ s a s', f s a = .ok s' → Q s → Q s')
    (herr : ∀ s, Q s → ∃ e, f s k = .error e) :
    ∀ l s, k ∈ l → Q s → ∃ e, List.foldlM f s l = .error e := by
  intro l
  induction l with
  | nil => intro s hk; simp at hk
  | cons a rest ih =>
    intro s hk hq
    rcases List.mem_cons.mp hk with rfl | hmem
    · obtain ⟨e, he⟩ := herr s hq
      refine ⟨e, ?_⟩
      rw [List.foldlM_cons, he, error_bind]
    · cases hf : f s a with
      | error e => exact ⟨e, by rw [List.foldlM_cons, hf, error_bind]⟩
      | ok s1 =>
        obtain ⟨e, he⟩ := ih s1 hmem (hmono s a s1 hf hq)
        exact ⟨e, by rw [List.foldlM_cons, hf, ok_bind, he]⟩

theorem SlotsLE_refl (d : DirectoryNode) : SlotsLE d d :=
  ⟨fun _ _ _ h => by rw [h]; rfl, fun _ _ _ _ h => by rw [h]; rfl⟩

theorem SlotsLE_trans {a b c : DirectoryNode} (h1 : SlotsLE a b)
    (h2 : SlotsLE b c) : SlotsLE a c := by
  constructor
  · intro path rank n hs
    obtain ⟨m, hm⟩ := Option.isSome_iff_exists.mp (h1.1 path rank n hs)
    exact h2.1 path rank m hm
  · intro path nm rank n hs
    obtain ⟨m, hm⟩ := Option.isSome_iff_exists.mp (h1.2 path nm rank n hs)
    exact h2.2 path nm rank m hm

/-- Unfolding `processFile` on a layout file. -/
theorem processFile_layout_run {env : Env} {opts : Options} {st : BuildState}
    {f : String} {meta : FileMeta} {keys : List String}
    (hig : ignoreMatch opts f = false)
    (hmeta : getFileMeta env opts f = .ok meta)
    (hspec : ¬meta.specificity < 0)
    (hlay : meta.isLayout = true)
    (hkeys : extrapolateGroups meta.key [] = .ok keys) :
    processFile env opts st f =
      (List.foldlM (fun d k => placeInDir d (dirParts k meta.filename)
          (placeLayout f meta (mkFileRouteNode f meta.name))) st.directory keys) >>=
        fun dir' =>
          .ok ⟨st.hasRoutes, st.hasLayout || decide (0 < keys.length), dir'⟩ := by
  unfold processFile
  rw [if_neg (by rw [hig]; simp), hmeta, ok_bind, if_neg hspec, hkeys, ok_bind,
    if_pos hlay]

/-- Unfolding `processFile` on a view file. -/
theorem processFile_view_run {env : Env} {opts : Options} {st : BuildState}
    {f : String} {meta : FileMeta} {keys : List String}
    (hig : ignoreMatch opts f = false)
    (hmeta : getFileMeta env opts f = .ok meta)
    (hspec : ¬meta.specificity < 0)
    (hlay : meta.isLayout = false)
    (hapi : meta.isApi = false)
    (hkeys : extrapolateGroups meta.key [] = .ok keys) :
    processFile env opts st f =
      (List.foldlM (fun d k => placeInDir d (dirParts k meta.filename)
          (placeView env opts f meta (mkFileRouteNode f meta.name))) st.directory keys) >>=
        fun dir' =>
          .ok ⟨st.hasRoutes || decide (0 < keys.length), st.hasLayout, dir'⟩ := by
  unfold processFile
  rw [if_neg (by rw [hig]; simp), hmeta, ok_bind, if_neg hspec, hkeys, ok_bind,
    if_neg (by rw [hlay]; simp), if_neg (by rw [hapi]; simp)]

/-- Processing a layout file occupies every slot one of its expanded keys
owns. -/
theorem processFile_layout_occupies {env : Env} {opts : Options}
    {st st' : BuildState} {f : String} {path : List String} {rank : Nat}
    (hmap : mapsLayoutTo env opts f path rank)
    (h : processFile env opts st f = .ok st') :
    (layoutSlot st'.directory path rank).isSome = true := by
  obtain ⟨hig, meta, keys, hmeta, hspec, hlay, hkeys, hrank, k, hk, hparts⟩ := hmap
  rw [processFile_layout_run hig hmeta hspec hlay hkeys, bind_ok_iff] at h
  obtain ⟨dir', hfold, hst'⟩ := h
  obtain rfl := (Except.ok.inj hst').symm
  show (layoutSlot dir' path rank).isSome = true
  subst hrank hparts
  refine foldlM_member
    (Q := fun k0 d =>
      (layoutSlot d (dirParts k0 meta.filename) meta.specificity.toNat).isSome = true)
    ?_ ?_ keys st.directory dir' hfold k hk
  · intro s a s' hs k0 hq
    obtain ⟨n, hn⟩ := Option.isSome_iff_exists.mp hq
    exact (placeInDir_slots_mono (fun _ _ => placeLayout_subdirs)
      placeLayout_local_slots hs).1 _ _ n hn
  · intro s a s' hs
    obtain ⟨sub, sub', hg, hla, -⟩ := placeInDir_target _ s s' hs
    obtain ⟨-, rfl⟩ := placeLayout_ok_elim hg
    unfold layoutSlot
    rw [hla]
    simp only [layout_mk, Option.getD_some]
    rw [getSparse_setSparse_self]
    rfl

/-- Processing a layout file aborts if one of its slots is already
occupied, whatever the environment mode. -/
theorem processFile_layout_conflict {env : Env} {opts : Options}
    {st : BuildState} {f : String} {path : List String} {rank : Nat}
    {x : RouteNode}
    (hmap : mapsLayoutTo env opts f path rank)
    (hocc : layoutSlot st.directory path rank = some x) :
    ∃ e, processFile env opts st f = .error e := by
  obtain ⟨hig, meta, keys, hmeta, hspec, hlay, hkeys, hrank, k, hk, hparts⟩ := hmap
  rw [processFile_layout_run hig hmeta hspec hlay hkeys]
  subst hrank hparts
  have hmono : ∀ (s : DirectoryNode) (a : String) (s' : DirectoryNode),
      placeInDir s (dirParts a meta.filename)
        (placeLayout f meta (mkFileRouteNode f meta.name)) = .ok s' →
      (layoutSlot s (dirParts k meta.filename) meta.specificity.toNat).isSome = true →
      (layoutSlot s' (dirParts k meta.filename) meta.specificity.toNat).isSome = true := by
    intro s a s' hs hq
    obtain ⟨n, hn⟩ := Option.isSome_iff_exists.mp hq
    exact (placeInDir_slots_mono (fun _ _ => placeLayout_subdirs)
      placeLayout_local_slots hs).1 _ _ n hn
  have herr : ∀ s : DirectoryNode,
      (layoutSlot s (dirParts k meta.filename) meta.specificity.toNat).isSome = true →
      ∃ e, placeInDir s (dirParts k meta.filename)
        (placeLayout f meta (mkFileRouteNode f meta.name)) = .error e := by
    intro s hq
    obtain ⟨n, hn⟩ := Option.isSome_iff_exists.mp hq
    unfold layoutSlot at hn
    cases hlk : lookupDir s (dirParts k meta.filename) with
    | none => rw [hlk] at hn; simp at hn
    | some dir =>
      rw [hlk] at hn
      dsimp only at hn
      obtain ⟨e, he⟩ :=
        @placeLayout_error_of_occupied f meta (mkFileRouteNode f meta.name) _ dir hn
      exact ⟨e, placeInDir_error_at _ s dir e hlk he⟩
  obtain ⟨e, he⟩ := foldlM_error_of_member hmono herr keys st.directory hk
    (by rw [hocc]; rfl)
  exact ⟨e, by rw [he, error_bind]⟩

/-- Processing a view file outside production aborts if one of its slots is
already occupied. -/
theorem processFile_view_conflict {env : Env} {opts : Options}
    {st : BuildState} {f : String} {path : List String} {nm : String}
    {rank : Nat} {x : RouteNode}
    (hprod : env.production = false)
    (hmap : mapsViewTo env opts f path nm rank)
    (hocc : viewSlot st.directory path nm rank = some x) :
    ∃ e, processFile env opts st f = .error e := by
  obtain ⟨hig, meta, keys, hmeta, hspec, hlay, hapi, hkeys, hnm, hrank, k, hk, hparts⟩ := hmap
  rw [processFile_view_run hig hmeta hspec hlay hapi hkeys]
  subst hrank hparts hnm
  have hmono : ∀ (s : DirectoryNode) (a : String) (s' : DirectoryNode),
      placeInDir s (dirParts a meta.filename)
        (placeView env opts f meta (mkFileRouteNode f meta.name)) = .ok s' →
      (viewSlot s (dirParts k meta.filename) meta.name meta.specificity.toNat).isSome = true →
      (viewSlot s' (dirParts k meta.filename) meta.name meta.specificity.toNat).isSome = true := by
    intro s a s' hs hq
    obtain ⟨n, hn⟩ := Option.isSome_iff_exists.mp hq
    exact (placeInDir_slots_mono (fun _ _ => placeView_subdirs)
      placeView_local_slots hs).2 _ _ _ n hn
  have herr : ∀ s : DirectoryNode,
      (viewSlot s (dirParts k meta.filename) meta.name meta.specificity.toNat).isSome = true →
      ∃ e, placeInDir s (dirParts k meta.filename)
        (placeView env opts f meta (mkFileRouteNode f meta.name)) = .error e := by
    intro s hq
    obtain ⟨n, hn⟩ := Option.isSome_iff_exists.mp hq
    unfold viewSlot at hn
    cases hlk : lookupDir s (dirParts k meta.filename) with
    | none => rw [hlk] at hn; simp at hn
    | some dir =>
      rw [hlk] at hn
      dsimp only at hn
      obtain ⟨e, he⟩ :=
        @placeView_error_of_occupied env opts f meta (mkFileRouteNode f meta.name) _ dir
          hprod hn
      exact ⟨e, placeInDir_error_at _ s dir e hlk he⟩
  obtain ⟨e, he⟩ := foldlM_error_of_member hmono herr keys st.directory hk
    (by rw [hocc]; rfl)
  exact ⟨e, by rw [he, error_bind]⟩

/-- A total step makes the whole fold total. -/
theorem foldlM_ok_of_total {σ α : Type} {f : σ → α → Except String σ}
    (hf : ∀ s a, ∃ s', f s a = .ok s') :
    ∀ (l : List α) (s : σ), ∃ s', List.foldlM f s l = .ok s' := by
  intro l
  induction l with
  | nil => intro s; exact ⟨s, rfl⟩
  | cons a rest ih =>
    intro s
    obtain ⟨s1, h1⟩ := hf s a
    obtain ⟨s', h2⟩ := ih s1
    exact ⟨s', by rw [List.foldlM_cons, h1, ok_bind, h2]⟩

/-- In production mode `placeView` never fails. -/
theorem placeView_total_production {env : Env} {opts : Options} {fp : String}
    {meta : FileMeta} {node : RouteNode} (hprod : env.production = true)
    (sub : DirectoryNode) :
    ∃ sub', placeView env opts fp meta node sub = .ok sub' := by
  unfold placeView
  rw [if_pos hprod]
  exact ⟨_, rfl⟩

/-- A successful `placeView` never erases its own node from a slot. -/
theorem placeView_local_value {env : Env} {opts : Options} {fp : String}
    {meta : FileMeta} {node : RouteNode} {sub sub' : DirectoryNode}
    {nm : String} {rank : Nat}
    (h : placeView env opts fp meta node sub = .ok sub')
    (hs : getSparse ((assocGet sub.views nm).getD []) rank = some node) :
    getSparse ((assocGet sub'.views nm).getD []) rank = some node := by
  obtain rfl := placeView_ok_elim h
  simp only [views_mk, assocGet_assocSet]
  by_cases hnm : nm = meta.name
  · rw [if_pos hnm, Option.getD_some]
    by_cases hr : rank = meta.specificity.toNat
    · subst hr
      rw [getSparse_setSparse_self]
    · rw [getSparse_setSparse_other _ _ _ _ hr, ← hnm]
      exact hs
  · rw [if_neg hnm]
    exact hs

/-- Value preservation of a fixed view slot across a placement whose action
preserves it locally. -/
theorem placeInDir_view_value
    {g : DirectoryNode → Except String DirectoryNode} {nm : String}
    {rank : Nat} {node : RouteNode}
    (hgsub : ∀ sub sub', g sub = .ok sub' → sub'.subdirectories = sub.subdirectories)
    (hgval : ∀ sub sub', g sub = .ok sub' →
      getSparse ((assocGet sub.views nm).getD []) rank = some node →
      getSparse ((assocGet sub'.views nm).getD []) rank = some node)
    {d d' : DirectoryNode} {parts : List String}
    (hplace : placeInDir d parts g = .ok d') :
    ∀ path, viewSlot d path nm rank = some node →
      viewSlot d' path nm rank = some node := by
  intro path hslot
  unfold viewSlot at hslot ⊢
  cases hlk : lookupDir d path with
  | none => rw [hlk] at hslot; simp at hslot
  | some dir =>
    rw [hlk] at hslot
    dsimp only at hslot
    obtain ⟨dir', hdir', hrel⟩ :=
      placeInDir_forward hgsub parts d d' hplace path dir hlk
    rw [hdir']
    dsimp only
    rcases hrel with ⟨_, hv⟩ | ⟨_, hgd⟩
    · rw [hv]; exact hslot
    · exact hgval dir dir' hgd hslot

/-- Processing a view file occupies every slot one of its expanded keys
owns, in either mode. -/
theorem processFile_view_occupies {env : Env} {opts : Options}
    {st st' : BuildState} {f : String} {path : List String} {nm : String}
    {rank : Nat}
    (hmap : mapsViewTo env opts f path nm rank)
    (h : processFile env opts st f = .ok st') :
    (viewSlot st'.directory path nm rank).isSome = true := by
  obtain ⟨hig, meta, keys, hmeta, hspec, hlay, hapi, hkeys, hnm, hrank, k, hk, hparts⟩ := hmap
  rw [processFile_view_run hig hmeta hspec hlay hapi hkeys, bind_ok_iff] at h
  obtain ⟨dir', hfold, hst'⟩ := h
  obtain rfl := (Except.ok.inj hst').symm
  show (viewSlot dir' path nm rank).isSome = true
  subst hrank hparts hnm
  refine foldlM_member
    (Q := fun k0 d =>
      (viewSlot d (dirParts k0 meta.filename) meta.name meta.specificity.toNat).isSome = true)
    ?_ ?_ keys st.directory dir' hfold k hk
  · intro s a s' hs k0 hq
    obtain ⟨n, hn⟩ := Option.isSome_iff_exists.mp hq
    exact (placeInDir_slots_mono (fun _ _ => placeView_subdirs)
      placeView_local_slots hs).2 _ _ _ n hn
  · intro s a s' hs
    obtain ⟨sub, sub', hg, hla, -⟩ := placeInDir_target _ s s' hs
    obtain rfl := placeView_ok_elim hg
    unfold viewSlot
    rw [hla]
    simp only [views_mk, assocGet_assocSet, if_true, Option.getD_some,
      getSparse_setSparse_self, Option.isSome_some]

/-- In production mode, processing a view file succeeds and each slot one of
its expanded keys owns ends up holding the node built for this very file. -/
theorem processFile_view_production {env : Env} {opts : Options}
    {st : BuildState} {f : String} {path : List String} {nm : String}
    {rank : Nat}
    (hprod : env.production = true)
    (hmap : mapsViewTo env opts f path nm rank) :
    ∃ st', processFile env opts st f = .ok st' ∧
      viewSlot st'.directory path nm rank = some (mkFileRouteNode f nm) := by
  obtain ⟨hig, meta, keys, hmeta, hspec, hlay, hapi, hkeys, hnm, hrank, k, hk, hparts⟩ := hmap
  rw [processFile_view_run hig hmeta hspec hlay hapi hkeys]
  subst hrank hparts hnm
  obtain ⟨dir', hfold⟩ := foldlM_ok_of_total
    (fun s a => placeInDir_ok_of_total
      (fun sub => @placeView_total_production env opts f meta
        (mkFileRouteNode f meta.name) hprod sub)
      (dirParts a meta.filename) s) keys st.directory
  have hval : viewSlot dir' (dirParts k meta.filename) meta.name
      meta.specificity.toNat = some (mkFileRouteNode f meta.name) := by
    refine foldlM_member
      (Q := fun k0 d =>
        viewSlot d (dirParts k0 meta.filename) meta.name meta.specificity.toNat =
          some (mkFileRouteNode f meta.name))
      ?_ ?_ keys st.directory dir' hfold k hk
    · intro s a s' hs k0 hq
      exact placeInDir_view_value (fun _ _ => placeView_subdirs)
        (fun sub sub' hg hv => placeView_local_value hg hv) hs _ hq
    · intro s a s' hs
      obtain ⟨sub, sub', hg, hla, -⟩ := placeInDir_target _ s s' hs
      obtain rfl := placeView_ok_elim hg
      unfold viewSlot
      rw [hla]
      simp only [views_mk, assocGet_assocSet, if_true, Option.getD_some,
        getSparse_setSparse_self]
  refine ⟨⟨st.hasRoutes || decide (0 < keys.length), st.hasLayout, dir'⟩, ?_, hval⟩
  rw [hfold, ok_bind]

/-- Slot occupancy only grows across `processFile`. -/
theorem processFile_slots_mono {env : Env} {opts : Options}
    {st st' : BuildState} {f : String}
    (h : processFile env opts st f = .ok st') :
    SlotsLE st.directory st'.directory := by
  by_cases hig : ignoreMatch opts f = true
  · unfold processFile at h
    rw [if_pos hig] at h
    obtain rfl := Except.ok.inj h
    exact SlotsLE_refl _
  · have hig' : ignoreMatch opts f = false := by simpa using hig
    cases hmeta : getFileMeta env opts f with
    | error e =>
      unfold processFile at h
      rw [if_neg hig, hmeta, error_bind] at h
      exact Except.noConfusion h
    | ok meta =>
      by_cases hspec : meta.specificity < 0
      · unfold processFile at h
        rw [if_neg hig, hmeta, ok_bind, if_pos hspec] at h
        obtain rfl := Except.ok.inj h
        exact SlotsLE_refl _
      · cases hkeys : extrapolateGroups meta.key [] with
        | error e =>
          unfold processFile at h
          rw [if_neg hig, hmeta, ok_bind, if_neg hspec, hkeys, error_bind] at h
          exact Except.noConfusion h
        | ok keys =>
          by_cases hlay : meta.isLayout = true
          · rw [processFile_layout_run hig' hmeta hspec hlay hkeys,
              bind_ok_iff] at h
            obtain ⟨dir', hfold, hok⟩ := h
            obtain rfl := (Except.ok.inj hok).symm
            exact foldlM_rel SlotsLE_refl (fun a b c => SlotsLE_trans)
              (fun s a s' hs => placeInDir_slots_mono
                (fun _ _ => placeLayout_subdirs) placeLayout_local_slots hs)
              keys st.directory dir' hfold
          · by_cases hapi : meta.isApi = true
            · unfold processFile at h
              rw [if_neg hig, hmeta, ok_bind, if_neg hspec, hkeys, ok_bind,
                if_neg hlay, if_pos hapi] at h
              obtain rfl := Except.ok.inj h
              exact SlotsLE_refl _
            · rw [processFile_view_run hig' hmeta hspec (by simpa using hlay)
                (by simpa using hapi) hkeys, bind_ok_iff] at h
              obtain ⟨dir', hfold, hok⟩ := h
              obtain rfl := (Except.ok.inj hok).symm
              exact foldlM_rel SlotsLE_refl (fun a b c => SlotsLE_trans)
                (fun s a s' hs => placeInDir_slots_mono
                  (fun _ _ => placeView_subdirs) placeView_local_slots hs)
                keys st.directory dir' hfold

/-- `getDirectoryTree` fails exactly when the file fold fails: the root
layout guarantee never fails. -/
theorem getDirectoryTree_isErr (env : Env) (opts : Options)
    (files : List String) :
    isErr (getDirectoryTree env opts files) =
      isErr (files.foldlM (processFile env opts) ⟨false, false, emptyDir⟩) := by
  unfold getDirectoryTree
  cases h : files.foldlM (processFile env opts) ⟨false, false, emptyDir⟩ with
  | error e => rw [error_bind]
  | ok st =>
    rw [ok_bind]
    split <;> rfl

/-- If a member establishes an invariant every successful step preserves
and under which a later member must fail, the fold over the surrounding
list always fails. -/
theorem foldlM_conflict {σ α : Type} {Q : σ → Prop}
    {f : σ → α → Except String σ} {e fi : α}
    (hset : ∀ s s', f s e = .ok s' → Q s')
    (hmono : ∀ s a s', f s a = .ok s' → Q s → Q s')
    (herr : ∀ s, Q s → ∃ er, f s fi = .error er)
    (pre mid post : List α) (s : σ) :
    isErr (List.foldlM f s (pre ++ e :: (mid ++ fi :: post))) = true := by
  rw [List.foldlM_append]
  cases hpre : List.foldlM f s pre with
  | error er => rw [error_bind]; rfl
  | ok s0 =>
    rw [ok_bind, List.foldlM_cons]
    cases he : f s0 e with
    | error er => rw [error_bind]; rfl
    | ok s1 =>
      rw [ok_bind, List.foldlM_append]
      cases hmid : List.foldlM f s1 mid with
      | error er => rw [error_bind]; rfl
      | ok s2 =>
        rw [ok_bind, List.foldlM_cons]
        have hq2 : Q s2 := foldlM_preserves hmono mid s1 s2 hmid (hset s0 s1 he)
        obtain ⟨er, her⟩ := herr s2 hq2
        rw [her, error_bind]
        rfl

theorem mem_of_getLastQ {α : Type} : ∀ {l : List α} {a : α},
    l.getLast? = some a → a ∈ l := by
  intro l
  induction l with
  | nil => intro a h; simp at h
  | cons x xs ih =>
    intro a h
    cases xs with
    | nil =>
      obtain rfl := Option.some.inj h
      exact List.mem_singleton_self x
    | cons y ys =>
      rw [List.getLast?_cons_cons] at h
      exact List.mem_cons_of_mem x (ih h)

theorem getSparse_of_mem {α : Type} {l : List (Option α)} {r : α}
    (h : some r ∈ l) : ∃ i, getSparse l i = some r := by
  obtain ⟨i, hi⟩ := List.get?_of_mem h
  exact ⟨i, by unfold getSparse; rw [hi]; rfl⟩

theorem assocGet_mem {α : Type} : ∀ {l : List (String × α)} {k : String} {v : α},
    assocGet l k = some v → (k, v) ∈ l := by
  intro l
  induction l with
  | nil => intro k v h; simp [assocGet] at h
  | cons p rest ih =>
    intro k v h
    obtain ⟨k0, v0⟩ := p
    rw [assocGet_cons] at h
    split at h
    · rename_i hk
      obtain rfl := Option.some.inj h
      rw [hk]
      exact List.mem_cons_self _ _
    · exact List.mem_cons_of_mem _ (ih h)

/-- A successful most-specific selection returns precisely the final
candidate. -/
theorem getMostSpecific_ok_elim {routes : List (Option RouteNode)}
    {r : RouteNode} (h : getMostSpecific routes = .ok r) :
    routes.getLast? = some (some r) := by
  unfold getMostSpecific at h
  cases hl : routes.getLast? with
  | none => rw [hl] at h; exact Except.noConfusion h
  | some o =>
    cases o with
    | none => rw [hl] at h; exact Except.noConfusion h
    | some r0 =>
      rw [hl] at h
      dsimp only at h
      split at h
      · obtain rfl := Except.ok.inj h
        rfl
      · exact Except.noConfusion h

/-- A pattern containing a character the subject lacks never matches. -/
theorem listReplaceFirst_id {p r : List Char} {c0 : Char}
    (hp : c0 ∈ p) : ∀ {l : List Char}, c0 ∉ l → listReplaceFirst p r l = l := by
  intro l
  induction l with
  | nil =>
    intro _
    unfold listReplaceFirst
    rw [if_neg (by rintro rfl; simp at hp)]
  | cons c cs ih =>
    intro hnl
    unfold listReplaceFirst
    rw [if_neg, ih (fun hm => hnl (List.mem_cons_of_mem c hm))]
    intro hpre
    obtain ⟨t, ht⟩ := isPrefixOf_iff_append.mp hpre
    exact hnl (ht ▸ List.mem_append_left t hp)

theorem replaceFirst_id_of_slash {s p : String}
    (hp : '/' ∈ p.data) (hs : '/' ∉ s.data) : replaceFirst s p "" = s := by
  unfold replaceFirst
  rw [listReplaceFirst_id hp hs]
  rfl

theorem replaceFirst_empty_pat (s : String) : replaceFirst s "" "" = s := by
  unfold replaceFirst
  have h : listReplaceFirst [] [] s.data = s.data := by
    cases s.data with
    | nil => rfl
    | cons c cs => rfl
  rw [h]
  rfl

/-- The hoister's path strip never changes a slash-free route name: the
active prefix is either empty or ends in a slash. -/
theorem hoistPtr_id {s route : String} (hs : '/' ∉ s.data) :
    replaceFirst s (if route ≠ "" then route ++ "/" else "") "" = s := by
  split
  · refine replaceFirst_id_of_slash ?_ hs
    rw [String.data_append]
    exact List.mem_append_right _ (by simp [String.data])
  · exact replaceFirst_empty_pat s

theorem emptyDir_localInv : localInv emptyDir := by
  constructor
  · intro rank n hn
    simp [emptyDir, getSparse] at hn
  · intro nm rank n hn
    simp [emptyDir, assocGet, getSparse] at hn

theorem emptyDir_inv : BuilderInv emptyDir := by
  intro path dir hpath
  cases path with
  | nil =>
    obtain rfl := Option.some.inj hpath
    exact emptyDir_localInv
  | cons p ps =>
    simp [lookupDir, emptyDir, assocGet] at hpath

theorem placeLayout_localInv {fp : String} {meta : FileMeta}
    {node : RouteNode} {sub sub' : DirectoryNode}
    (h : placeLayout fp meta node sub = .ok sub')
    (hnode : isLayoutContextKey node.contextKey = true)
    (hs : localInv sub) : localInv sub' := by
  obtain ⟨-, rfl⟩ := placeLayout_ok_elim h
  constructor
  · intro rank n hn
    simp only [layout_mk, Option.getD_some] at hn
    by_cases hr : rank = meta.specificity.toNat
    · subst hr
      rw [getSparse_setSparse_self] at hn
      obtain rfl := Option.some.inj hn
      exact hnode
    · rw [getSparse_setSparse_other _ _ _ _ hr] at hn
      exact hs.1 rank n hn
  · intro nm rank n hn
    simp only [views_mk] at hn
    exact hs.2 nm rank n hn

theorem placeView_localInv {env : Env} {opts : Options} {fp : String}
    {meta : FileMeta} {node : RouteNode} {sub sub' : DirectoryNode}
    (h : placeView env opts fp meta node sub = .ok sub')
    (hroute : node.route = meta.name) (hgen : node.generated = false)
    (hs : localInv sub) : localInv sub' := by
  obtain rfl := placeView_ok_elim h
  constructor
  · intro rank n hn
    simp only [layout_mk] at hn
    exact hs.1 rank n hn
  · intro nm rank n hn
    simp only [views_mk, assocGet_assocSet] at hn
    by_cases hnm : nm = meta.name
    · rw [if_pos hnm, Option.getD_some] at hn
      by_cases hr : rank = meta.specificity.toNat
      · subst hr
        rw [getSparse_setSparse_self] at hn
        obtain rfl := Option.some.inj hn
        exact ⟨by rw [hroute, hnm], hgen⟩
      · rw [getSparse_setSparse_other _ _ _ _ hr, ← hnm] at hn
        exact hs.2 nm rank n hn
    · rw [if_neg hnm] at hn
      exact hs.2 nm rank n hn

/-- `BuilderInv` survives a placement whose action preserves the local
invariant. -/
theorem placeInDir_localInv {g : DirectoryNode → Except String DirectoryNode}
    (hgsub : ∀ sub sub', g sub = .ok sub' → sub'.subdirectories = sub.subdirectories)
    (hginv : ∀ sub sub', g sub = .ok sub' → localInv sub → localInv sub')
    {d d' : DirectoryNode} {parts : List String}
    (hplace : placeInDir d parts g = .ok d')
    (hinv : BuilderInv d) : BuilderInv d' := by
  intro path dir' hpath
  rcases placeInDir_backward hgsub parts d d' hplace path dir' hpath with
    ⟨dir, hld, hl, hv⟩ | ⟨hl, hv⟩ | ⟨rfl, dir, hdir, hgd⟩
  · obtain ⟨h1, h2⟩ := hinv path dir hld
    constructor
    · intro rank n hn
      rw [hl] at hn
      exact h1 rank n hn
    · intro nm rank n hn
      rw [hv] at hn
      exact h2 nm rank n hn
  · constructor
    · intro rank n hn
      rw [hl] at hn
      simp [getSparse] at hn
    · intro nm rank n hn
      rw [hv] at hn
      simp [assocGet, getSparse] at hn
  · rcases hdir with hld | rfl
    · exact hginv dir dir' hgd (hinv path dir hld)
    · exact hginv emptyDir dir' hgd emptyDir_localInv

/-- `BuilderInv` survives one processed file. -/
theorem processFile_inv {env : Env} {opts : Options} {st st' : BuildState}
    {f : String} (h : processFile env opts st f = .ok st')
    (hinv : BuilderInv st.directory) : BuilderInv st'.directory := by
  by_cases hig : ignoreMatch opts f = true
  · unfold processFile at h
    rw [if_pos hig] at h
    obtain rfl := Except.ok.inj h
    exact hinv
  · have hig' : ignoreMatch opts f = false := by simpa using hig
    cases hmeta : getFileMeta env opts f with
    | error e =>
      unfold processFile at h
      rw [if_neg hig, hmeta, error_bind] at h
      exact Except.noConfusion h
    | ok meta =>
      by_cases hspec : meta.specificity < 0
      · unfold processFile at h
        rw [if_neg hig, hmeta, ok_bind, if_pos hspec] at h
        obtain rfl := Except.ok.inj h
        exact hinv
      · cases hkeys : extrapolateGroups meta.key [] with
        | error e =>
          unfold processFile at h
          rw [if_neg hig, hmeta, ok_bind, if_neg hspec, hkeys, error_bind] at h
          exact Except.noConfusion h
        | ok keys =>
          by_cases hlay : meta.isLayout = true
          · rw [processFile_layout_run hig' hmeta hspec hlay hkeys,
              bind_ok_iff] at h
            obtain ⟨dir', hfold, hok⟩ := h
            obtain rfl := (Except.ok.inj hok).symm
            have hctx : isLayoutContextKey f = true := by
              rw [← (getFileMeta_fields hmeta).1]
              exact hlay
            exact foldlM_preserves
              (fun s a s' hs hp => placeInDir_localInv
                (g := placeLayout f meta (mkFileRouteNode f meta.name))
                (fun _ _ => placeLayout_subdirs)
                (fun sub sub' hg hls => placeLayout_localInv hg hctx hls) hs hp)
              keys st.directory dir' hfold hinv
          · by_cases hapi : meta.isApi = true
            · unfold processFile at h
              rw [if_neg hig, hmeta, ok_bind, if_neg hspec, hkeys, ok_bind,
                if_neg hlay, if_pos hapi] at h
              obtain rfl := Except.ok.inj h
              exact hinv
            · rw [processFile_view_run hig' hmeta hspec (by simpa using hlay)
                (by simpa using hapi) hkeys, bind_ok_iff] at h
              obtain ⟨dir', hfold, hok⟩ := h
              obtain rfl := (Except.ok.inj hok).symm
              exact foldlM_preserves
                (fun s a s' hs hp => placeInDir_localInv
                  (g := placeView env opts f meta (mkFileRouteNode f meta.name))
                  (fun _ _ => placeView_subdirs)
                  (fun sub sub' hg hls => placeView_localInv hg rfl rfl hls) hs hp)
                keys st.directory dir' hfold hinv

/-- The found-anything flags are never reset. -/
theorem processFile_flags_mono {env : Env} {opts : Options}
    {st st' : BuildState} {f : String}
    (h : processFile env opts st f = .ok st') :
    (st.hasRoutes = true → st'.hasRoutes = true) ∧
    (st.hasLayout = true → st'.hasLayout = true) := by
  by_cases hig : ignoreMatch opts f = true
  · unfold processFile at h
    rw [if_pos hig] at h
    obtain rfl := Except.ok.inj h
    exact ⟨id, id⟩
  · have hig' : ignoreMatch opts f = false := by simpa using hig
    cases hmeta : getFileMeta env opts f with
    | error e =>
      unfold processFile at h
      rw [if_neg hig, hmeta, error_bind] at h
      exact Except.noConfusion h
    | ok meta =>
      by_cases hspec : meta.specificity < 0
      · unfold processFile at h
        rw [if_neg hig, hmeta, ok_bind, if_pos hspec] at h
        obtain rfl := Except.ok.inj h
        exact ⟨id, id⟩
      · cases hkeys : extrapolateGroups meta.key [] with
        | error e =>
          unfold processFile at h
          rw [if_neg hig, hmeta, ok_bind, if_neg hspec, hkeys, error_bind] at h
          exact Except.noConfusion h
        | ok keys =>
          by_cases hlay : meta.isLayout = true
          · rw [processFile_layout_run hig' hmeta hspec hlay hkeys,
              bind_ok_iff] at h
            obtain ⟨dir', hfold, hok⟩ := h
            obtain rfl := (Except.ok.inj hok).symm
            exact ⟨id, fun hp => by
              show (st.hasLayout || _) = true
              rw [hp]
              rfl⟩
          · by_cases hapi : meta.isApi = true
            · unfold processFile at h
              rw [if_neg hig, hmeta, ok_bind, if_neg hspec, hkeys, ok_bind,
                if_neg hlay, if_pos hapi] at h
              obtain rfl := Except.ok.inj h
              exact ⟨id, id⟩
            · rw [processFile_view_run hig' hmeta hspec (by simpa using hlay)
                (by simpa using hapi) hkeys, bind_ok_iff] at h
              obtain ⟨dir', hfold, hok⟩ := h
              obtain rfl := (Except.ok.inj hok).symm
              exact ⟨fun hp => by
                show (st.hasRoutes || _) = true
                rw [hp]
                rfl, id⟩

/-- A processed view file sets the `hasRoutes` flag. -/
theorem processFile_view_sets_hasRoutes {env : Env} {opts : Options}
    {st st' : BuildState} {f : String}
    (hview : isViewFile env opts f = true)
    (h : processFile env opts st f = .ok st') : st'.hasRoutes = true := by
  unfold isViewFile at hview
  rw [Bool.and_eq_true] at hview
  obtain ⟨hig, hrest⟩ := hview
  have hig' : ignoreMatch opts f = false := by
    cases hm : ignoreMatch opts f
    · rfl
    · rw [hm] at hig; exact absurd hig (by decide)
  cases hmeta : getFileMeta env opts f with
  | error e =>
    rw [hmeta] at hrest
    dsimp only at hrest
    exact Bool.noConfusion hrest
  | ok meta =>
    rw [hmeta] at hrest
    dsimp only at hrest
    rw [Bool.and_eq_true, Bool.and_eq_true] at hrest
    obtain ⟨⟨hspec, hlay⟩, hapi⟩ := hrest
    have hspec' : ¬meta.specificity < 0 := by simpa using hspec
    have hlay' : meta.isLayout = false := by simpa using hlay
    have hapi' : meta.isApi = false := by simpa using hapi
    cases hkeys : extrapolateGroups meta.key [] with
    | error e =>
      unfold processFile at h
      rw [if_neg (by rw [hig']; simp), hmeta, ok_bind, if_neg hspec', hkeys,
        error_bind] at h
      exact Except.noConfusion h
    | ok keys =>
      rw [processFile_view_run hig' hmeta hspec' hlay' hapi' hkeys,
        bind_ok_iff] at h
      obtain ⟨dir', hfold, hok⟩ := h
      obtain rfl := (Except.ok.inj hok).symm
      show (st.hasRoutes || decide (0 < keys.length)) = true
      have h0 : 0 < keys.length := extrapolateGroups_length hkeys
      rw [decide_eq_true h0, Bool.or_true]

/-- A file set containing a view file builds with the `hasRoutes` flag
set. -/
theorem getDirectoryTree_hasRoutes {env : Env} {opts : Options}
    {files : List String} {st : BuildState} {f : String}
    (hf : f ∈ files) (hview : isViewFile env opts f = true)
    (h : getDirectoryTree env opts files = .ok st) : st.hasRoutes = true := by
  obtain ⟨pre, post, rfl⟩ := List.append_of_mem hf
  unfold getDirectoryTree at h
  rw [bind_ok_iff] at h
  obtain ⟨st0, hfold, hsyn⟩ := h
  have hflag : st.hasRoutes = st0.hasRoutes := by
    split at hsyn <;> (obtain rfl := (Except.ok.inj hsyn).symm; rfl)
  rw [List.foldlM_append, bind_ok_iff] at hfold
  obtain ⟨st1, hpre, hrest⟩ := hfold
  rw [List.foldlM_cons, bind_ok_iff] at hrest
  obtain ⟨st2, hstep, hpost⟩ := hrest
  have h2 : st2.hasRoutes = true := processFile_view_sets_hasRoutes hview hstep
  have h3 : st0.hasRoutes = true :=
    foldlM_preserves (fun s a s' hs hp => (processFile_flags_mono hs).1 hp)
      post st2 st0 hpost h2
  rw [hflag, h3]

/-- The built directory's root views all carry their map key as their
route. -/
theorem getDirectoryTree_inv {env : Env} {opts : Options}
    {files : List String} {st : BuildState}
    (h : getDirectoryTree env opts files = .ok st) :
    rootViewsNamed st.directory := by
  unfold getDirectoryTree at h
  rw [bind_ok_iff] at h
  obtain ⟨st0, hfold, hsyn⟩ := h
  have hinv0 : BuilderInv st0.directory :=
    foldlM_preserves (fun s a s' hs hp => processFile_inv hs hp)
      files ⟨false, false, emptyDir⟩ st0 hfold emptyDir_inv
  have hviews : st.directory.views = st0.directory.views := by
    split at hsyn <;> (obtain rfl := (Except.ok.inj hsyn).symm; rfl)
  intro nm rank n hn
  rw [hviews] at hn
  exact ((hinv0 [] st0.directory rfl).2 nm rank n hn).1

theorem appendSitemapRoute_views_named {d : DirectoryNode}
    (h : rootViewsNamed d) : rootViewsNamed (appendSitemapRoute d) := by
  intro nm rank n hn
  unfold appendSitemapRoute at hn
  split at hn
  · exact h nm rank n hn
  · simp only [views_mk, assocGet_assocSet] at hn
    by_cases hnm : nm = "_sitemap"
    · rw [if_pos hnm, Option.getD_some] at hn
      cases rank with
      | zero =>
        have he : sitemapNode = n := Option.some.inj hn
        rw [← he, hnm]
        rfl
      | succ k => simp [getSparse] at hn
    · rw [if_neg hnm] at hn
      exact h nm rank n hn

theorem appendNotFoundRoute_views_named {d : DirectoryNode}
    (h : rootViewsNamed d) : rootViewsNamed (appendNotFoundRoute d) := by
  intro nm rank n hn
  unfold appendNotFoundRoute at hn
  split at hn
  · exact h nm rank n hn
  · simp only [views_mk, assocGet_assocSet] at hn
    by_cases hnm : nm = "+not-found"
    · rw [if_pos hnm, Option.getD_some] at hn
      cases rank with
      | zero =>
        have he : notFoundNode = n := Option.some.inj hn
        rw [← he, hnm]
        rfl
      | succ k => simp [getSparse] at hn
    · rw [if_neg hnm] at hn
      exact h nm rank n hn

theorem appendSitemapRoute_has (d : DirectoryNode) :
    (assocGet (appendSitemapRoute d).views "_sitemap").isSome = true := by
  unfold appendSitemapRoute
  split
  · assumption
  · simp [views_mk, assocGet_assocSet]

theorem appendNotFoundRoute_has (d : DirectoryNode) :
    (assocGet (appendNotFoundRoute d).views "+not-found").isSome = true := by
  unfold appendNotFoundRoute
  split
  · assumption
  · simp [views_mk, assocGet_assocSet]

theorem appendNotFoundRoute_keeps {d : DirectoryNode} {nm : String}
    (hne : nm ≠ "+not-found")
    (hs : (assocGet d.views nm).isSome = true) :
    (assocGet (appendNotFoundRoute d).views nm).isSome = true := by
  unfold appendNotFoundRoute
  split
  · exact hs
  · simp only [views_mk, assocGet_assocSet, if_neg hne]
    exact hs

/-- One unfolding of `hoistViews` with the pure bindings inlined. -/
theorem hoistViews_cons (opts : Options) (nm0 : String)
    (ns0 : List (Option RouteNode))
    (rest : List (String × List (Option RouteNode)))
    (ep : List String) (ptr : String) :
    hoistViews opts ((nm0, ns0) :: rest) ep ptr =
      getMostSpecific ns0 >>= fun r =>
        hoistViews opts rest ep ptr >>= fun others =>
          .ok (RouteNode.update r (replaceFirst r.route ptr "")
            (generateDynamic (replaceFirst r.route ptr "")) r.children
            (if opts.ignoreEntryPoints then none
             else some (dedupKeepFirst (ep ++ r.entryPoints.getD []))) ::
            others) := rfl

/-- Every views-map entry of a successfully hoisted directory yields a
child whose route and dynamic segments are recomputed from the selected
candidate. -/
theorem hoistViews_member {opts : Options} {ep : List String} {ptr : String} :
    ∀ {vs : List (String × List (Option RouteNode))} {out : List RouteNode}
      {nm : String} {ns : List (Option RouteNode)},
      hoistViews opts vs ep ptr = .ok out → (nm, ns) ∈ vs →
      ∃ r c, getMostSpecific ns = .ok r ∧ c ∈ out ∧
        c.route = replaceFirst r.route ptr "" ∧
        c.dynamic = generateDynamic (replaceFirst r.route ptr "") := by
  intro vs
  induction vs with
  | nil =>
    intro out nm ns h hm
    simp at hm
  | cons hd rest ih =>
    intro out nm ns h hm
    obtain ⟨nm0, ns0⟩ := hd
    rw [hoistViews_cons, bind_ok_iff] at h
    obtain ⟨r0, hr0, h⟩ := h
    rw [bind_ok_iff] at h
    obtain ⟨others, hothers, hout⟩ := h
    obtain rfl := (Except.ok.inj hout).symm
    rcases List.mem_cons.mp hm with heq | hmem
    · injection heq with h1 h2
      subst h1
      subst h2
      exact ⟨r0, _, hr0, List.mem_cons_self _ _, rfl, rfl⟩
    · obtain ⟨r, c, hr, hc, hroute, hdyn⟩ := ih hothers hmem
      exact ⟨r, c, hr, List.mem_cons_of_mem _ hc, hroute, hdyn⟩

/-- One unfolding of `hoistDir` on a directory owning a layout, with the
pure bindings inlined. -/
theorem hoistDir_layout_run (opts : Options) (arr : List (Option RouteNode))
    (views : List (String × List (Option RouteNode)))
    (subs : List (String × DirectoryNode))
    (ep : List String) (ptr0 : String) :
    hoistDir opts ⟨some arr, views, subs⟩ ep ptr0 =
      getMostSpecific arr >>= fun L =>
        hoistViews opts views (ep ++ L.entryPoints.getD [])
          (if L.route ≠ "" then L.route ++ "/" else "") >>= fun vc =>
        hoistSubdirs opts subs (ep ++ L.entryPoints.getD [])
          (if L.route ≠ "" then L.route ++ "/" else "") >>= fun sc =>
        .ok [RouteNode.update L (replaceFirst L.route ptr0 "")
          (generateDynamic (replaceFirst L.route ptr0 ""))
          (L.children ++ vc ++ sc) none] := rfl

/-- Inversion of a successful root hoist that returned a node. -/
theorem hoistRoot_ok_elim {d : DirectoryNode} {opts : Options} {t : RouteNode}
    (h : hoistRoutesToNearestLayout d opts = .ok (some t)) :
    ∃ arr views subs L vc sc,
      d = ⟨some arr, views, subs⟩ ∧
      getMostSpecific arr = .ok L ∧
      hoistViews opts views ([] ++ L.entryPoints.getD [])
        (if L.route ≠ "" then L.route ++ "/" else "") = .ok vc ∧
      hoistSubdirs opts subs ([] ++ L.entryPoints.getD [])
        (if L.route ≠ "" then L.route ++ "/" else "") = .ok sc ∧
      t = RouteNode.update L (replaceFirst L.route "" "")
        (generateDynamic (replaceFirst L.route "" ""))
        (L.children ++ vc ++ sc) none := by
  obtain ⟨lay, views, subs⟩ := d
  cases lay with
  | none =>
    unfold hoistRoutesToNearestLayout at h
    exact Option.noConfusion (Except.ok.inj h)
  | some arr =>
    unfold hoistRoutesToNearestLayout at h
    rw [layout_mk] at h
    dsimp only at h
    rw [hoistDir_layout_run, bind_ok_iff] at h
    obtain ⟨l, hl, hhead⟩ := h
    rw [bind_ok_iff] at hl
    obtain ⟨L, hL, hl⟩ := hl
    rw [bind_ok_iff] at hl
    obtain ⟨vc, hvc, hl⟩ := hl
    rw [bind_ok_iff] at hl
    obtain ⟨sc, hsc, hl⟩ := hl
    obtain rfl := (Except.ok.inj hl).symm
    have ht : some (RouteNode.update L (replaceFirst L.route "" "")
        (generateDynamic (replaceFirst L.route "" ""))
        (L.children ++ vc ++ sc) none) = some t := Except.ok.inj hhead
    exact ⟨arr, views, subs, L, vc, sc, rfl, hL, hvc, hsc,
      (Option.some.inj ht).symm⟩

/-- The run of `getRoutes` past a successful build with something found. -/
theorem getRoutes_run {env : Env} {opts : Options} {files : List String}
    {st : BuildState}
    (hst : getDirectoryTree env opts files = .ok st)
    (hflag : (!st.hasLayout && !st.hasRoutes) = false) :
    getRoutes env opts files =
      hoistRoutesToNearestLayout
        (appendNotFoundRoute
          (if st.hasRoutes || opts.unstable_alwaysIncludeSitemap then
            appendSitemapRoute st.directory else st.directory)) opts := by
  unfold getRoutes
  rw [hst, ok_bind, if_neg (by rw [hflag]; simp)]

theorem foldlM_preserves_mem {σ α : Type} {P : σ → Prop}
    {f : σ → α → Except String σ} :
    ∀ {l : List α},
      (∀ s k s', k ∈ l → f s k = .ok s' → P s → P s') →
      ∀ s s', List.foldlM f s l = .ok s' → P s → P s' := by
  intro l
  induction l with
  | nil =>
    intro _ s s' h hp
    obtain rfl := Except.ok.inj h
    exact hp
  | cons a rest ih =>
    intro hf s s' h hp
    rw [List.foldlM_cons, bind_ok_iff] at h
    obtain ⟨s1, h1, h2⟩ := h
    exact ih (fun s k s' hk => hf s k s' (List.mem_cons_of_mem a hk)) s1 s' h2
      (hf s a s1 (List.mem_cons_self a rest) h1 hp)

theorem placeView_layout {env : Env} {opts : Options} {fp : String}
    {meta : FileMeta} {node : RouteNode} {d d' : DirectoryNode}
    (h : placeView env opts fp meta node d = .ok d') : d'.layout = d.layout := by
  rw [placeView_ok_elim h]
  rfl

/-- A placement whose action keeps the local layout field keeps the root
layout field. -/
theorem placeInDir_layout_pres {g : DirectoryNode → Except String DirectoryNode}
    (hg : ∀ sub sub', g sub = .ok sub' → sub'.layout = sub.layout) :
    ∀ (parts : List String) (d d' : DirectoryNode),
      placeInDir d parts g = .ok d' → d'.layout = d.layout := by
  intro parts
  cases parts with
  | nil => intro d d' h; exact hg d d' h
  | cons p ps =>
    intro d d' h
    simp only [placeInDir] at h
    rw [bind_ok_iff] at h
    obtain ⟨sub', hsub', hok⟩ := h
    obtain rfl := (Except.ok.inj hok).symm
    rfl

/-- A placement below the root keeps the root layout field. -/
theorem placeInDir_layout_ne_nil {g : DirectoryNode → Except String DirectoryNode}
    {parts : List String} (hne : parts ≠ [])
    {d d' : DirectoryNode} (h : placeInDir d parts g = .ok d') :
    d'.layout = d.layout := by
  cases parts with
  | nil => exact absurd rfl hne
  | cons p ps =>
    simp only [placeInDir] at h
    rw [bind_ok_iff] at h
    obtain ⟨sub', hsub', hok⟩ := h
    obtain rfl := (Except.ok.inj hok).symm
    rfl

/-- A file that places no layout at the root keeps the root layout field
unchanged. -/
theorem processFile_rootLayout {env : Env} {opts : Options}
    {st st' : BuildState} {f : String}
    (hno : placesLayoutAtRoot env opts f = false)
    (h : processFile env opts st f = .ok st') :
    st'.directory.layout = st.directory.layout := by
  by_cases hig : ignoreMatch opts f = true
  · unfold processFile at h
    rw [if_pos hig] at h
    obtain rfl := Except.ok.inj h
    rfl
  · have hig' : ignoreMatch opts f = false := by simpa using hig
    cases hmeta : getFileMeta env opts f with
    | error e =>
      unfold processFile at h
      rw [if_neg hig, hmeta, error_bind] at h
      exact Except.noConfusion h
    | ok meta =>
      by_cases hspec : meta.specificity < 0
      · unfold processFile at h
        rw [if_neg hig, hmeta, ok_bind, if_pos hspec] at h
        obtain rfl := Except.ok.inj h
        rfl
      · cases hkeys : extrapolateGroups meta.key [] with
        | error e =>
          unfold processFile at h
          rw [if_neg hig, hmeta, ok_bind, if_neg hspec, hkeys, error_bind] at h
          exact Except.noConfusion h
        | ok keys =>
          by_cases hlay : meta.isLayout = true
          · unfold placesLayoutAtRoot at hno
            rw [if_neg hig, hmeta] at hno
            dsimp only at hno
            rw [if_neg hspec, if_pos hlay, hkeys] at hno
            dsimp only at hno
            rw [processFile_layout_run hig' hmeta hspec hlay hkeys,
              bind_ok_iff] at h
            obtain ⟨dir', hfold, hok⟩ := h
            obtain rfl := (Except.ok.inj hok).symm
            show dir'.layout = st.directory.layout
            refine foldlM_preserves_mem
              (P := fun d => d.layout = st.directory.layout)
              (fun s k0 s' hk hs hp => ?_) st.directory dir' hfold rfl
            have hne : dirParts k0 meta.filename ≠ [] := by
              intro hemp
              have hany : keys.any
                  (fun k => (dirParts k meta.filename).isEmpty) = true :=
                List.any_eq_true.mpr ⟨k0, hk, by rw [hemp]; rfl⟩
              rw [hno] at hany
              exact Bool.noConfusion hany
            show s'.layout = st.directory.layout
            rw [placeInDir_layout_ne_nil hne hs]
            exact hp
          · by_cases hapi : meta.isApi = true
            · unfold processFile at h
              rw [if_neg hig, hmeta, ok_bind, if_neg hspec, hkeys, ok_bind,
                if_neg hlay, if_pos hapi] at h
              obtain rfl := Except.ok.inj h
              rfl
            · rw [processFile_view_run hig' hmeta hspec (by simpa using hlay)
                (by simpa using hapi) hkeys, bind_ok_iff] at h
              obtain ⟨dir', hfold, hok⟩ := h
              obtain rfl := (Except.ok.inj hok).symm
              show dir'.layout = st.directory.layout
              refine foldlM_preserves
                (P := fun d => d.layout = st.directory.layout)
                (fun s k0 s' hs hp => ?_) keys st.directory dir' hfold rfl
              show s'.layout = st.directory.layout
              rw [placeInDir_layout_pres
                (fun sub sub' hg => placeView_layout hg) _ s s' hs]
              exact hp

/-- With no root layout file in the enumeration, the build synthesizes the
default root layout as the only root layout candidate. -/
theorem getDirectoryTree_synthesized {env : Env} {opts : Options}
    {files : List String} {st : BuildState}
    (hall : ∀ f ∈ files, placesLayoutAtRoot env opts f = false)
    (h : getDirectoryTree env opts files = .ok st) :
    st.directory.layout = some [some defaultRootLayout] := by
  unfold getDirectoryTree at h
  rw [bind_ok_iff] at h
  obtain ⟨st0, hfold, hsyn⟩ := h
  have h0 : st0.directory.layout = none :=
    foldlM_preserves_mem (P := fun b => b.directory.layout = none)
      (fun s k s' hk hs hp => by
        show s'.directory.layout = none
        rw [processFile_rootLayout (hall k hk) hs]
        exact hp)
      ⟨false, false, emptyDir⟩ st0 hfold rfl
  split at hsyn
  · rename_i hsome
    rw [h0] at hsome
    exact Bool.noConfusion hsome
  · obtain rfl := (Except.ok.inj hsyn).symm
    rfl

/-- Every populated root layout candidate of a built tree is backed by a
`_layout.`-named context key. -/
theorem getDirectoryTree_rootLayoutInv {env : Env} {opts : Options}
    {files : List String} {st : BuildState}
    (h : getDirectoryTree env opts files = .ok st) :
    ∀ rank n, getSparse (st.directory.layout.getD []) rank = some n →
      isLayoutContextKey n.contextKey = true := by
  unfold getDirectoryTree at h
  rw [bind_ok_iff] at h
  obtain ⟨st0, hfold, hsyn⟩ := h
  have hinv0 : BuilderInv st0.directory :=
    foldlM_preserves (fun s a s' hs hp => processFile_inv hs hp)
      files ⟨false, false, emptyDir⟩ st0 hfold emptyDir_inv
  intro rank n hn
  split at hsyn
  · obtain rfl := (Except.ok.inj hsyn).symm
    exact (hinv0 [] st0.directory rfl).1 rank n hn
  · obtain rfl := (Except.ok.inj hsyn).symm
    have hn' : getSparse [some defaultRootLayout] rank = some n := hn
    cases rank with
    | zero =>
      obtain rfl := Option.some.inj hn'
      rfl
    | succ k => simp [getSparse] at hn'

/-! ## The claims -/

/-- C8: `generateDynamic` maps the route path `a/[id]/[...rest]` to
`[{name := id, deep := false}, {name := rest, deep := true}]` in segment
order, maps `a/b` to `null`, and returns `null` (never an empty sequence)
for every path without a dynamic, catch-all or not-found segment. -/
theorem claim8_generateDynamic :
    generateDynamic "a/[id]/[...rest]" =
      some [⟨"id", false, false⟩, ⟨"rest", true, false⟩] ∧
    generateDynamic "a/b" = none ∧
    ∀ path : String,
      (∀ part ∈ splitStr '/' path, part ≠ "+not-found" ∧
        matchDeepDynamicRouteName part = none ∧ matchDynamicName part = none) →
      generateDynamic path = none := by
  refine ⟨rfl, rfl, ?_⟩
  intro path h
  unfold generateDynamic
  have hnil : (splitStr '/' path).filterMap (fun part =>
      if part = "+not-found" then some ⟨"+not-found", true, true⟩
      else
        match matchDeepDynamicRouteName part with
        | some n => some ⟨n, true, false⟩
        | none =>
          match matchDynamicName part with
          | some n => some ⟨n, false, false⟩
          | none => none) = ([] : List DynamicConvention) := by
    rw [List.filterMap_eq_nil_iff]
    intro part hp
    obtain ⟨h1, h2, h3⟩ := h part hp
    rw [if_neg h1, h2, h3]
  rw [hnil]
  rfl

/-- C8 witness: a concrete all-static path evaluates to `null` through the
theorem. -/
theorem claim8_witness : generateDynamic "x/y" = none :=
  claim8_generateDynamic.2.2 "x/y" (by decide)

/-- C10: a group list whose members are distinct as raw substrings but all
equal after trimming (e.g. the segment `(a, a)`) raises no duplicate-group
error — the duplicate check compares untrimmed members — and, because
expansion trims each member before substitution and accumulates into a set,
the result is the single substituted path (provided that path has no
further multi-member group to expand). -/
theorem claim10_trim_equal_groups
    (key m t : String) (gs : List String)
    (hm : matchGroupName key = some m)
    (hgs : splitStr ',' m = gs)
    (hnodup : gs.Nodup)
    (hlen : 2 ≤ gs.length)
    (htrim : ∀ g ∈ gs, strTrim g = t)
    (hsingle : ∀ m', matchGroupName (replaceFirst key m t) = some m' →
      (splitStr ',' m').length = 1) :
    extrapolateGroups key [] = .ok [replaceFirst key m t] := by
  have hcc : 1 ≤ commaCount key := commaCount_pos_of_multi hm (by rw [hgs]; omega)
  obtain ⟨n, hn⟩ : ∃ n, commaCount key = n + 1 := ⟨commaCount key - 1, by omega⟩
  unfold extrapolateGroups
  rw [hn]
  simp only [extrapolateGroupsAux]
  unfold extrapolateStep
  rw [hm]
  simp only [hgs, dedupKeepFirst_of_nodup hnodup]
  rw [if_neg (by simp), if_neg (by omega)]
  have hstep : ∀ g ∈ gs, ∀ ks : List String,
      extrapolateGroupsAux n (replaceFirst key m (strTrim g)) ks =
        .ok (addUnique ks (replaceFirst key m t)) := by
    intro g hg ks
    rw [htrim g hg]
    exact extrapolateGroupsAux_single n hsingle ks
  obtain ⟨g0, rest, rfl⟩ : ∃ g0 rest, gs = g0 :: rest := by
    cases gs with
    | nil => simp at hlen
    | cons a b => exact ⟨a, b, rfl⟩
  have htail : ∀ rest' : List String, (∀ g ∈ rest', g ∈ g0 :: rest) →
      List.foldlM (fun ks g =>
        extrapolateGroupsAux n (replaceFirst key m (strTrim g)) ks)
        [replaceFirst key m t] rest' = .ok [replaceFirst key m t] := by
    intro rest'
    induction rest' with
    | nil => intro _; rfl
    | cons g1 rest1 ih =>
      intro hsub
      rw [List.foldlM_cons, hstep g1 (hsub g1 (List.mem_cons_self g1 rest1))]
      have : addUnique [replaceFirst key m t] (replaceFirst key m t) =
          [replaceFirst key m t] := by simp [addUnique]
      rw [this]
      exact ih (fun g hg => hsub g (List.mem_cons_of_mem g1 hg))
  rw [List.foldlM_cons, hstep g0 (List.mem_cons_self g0 rest)]
  have : addUnique [] (replaceFirst key m t) = [replaceFirst key m t] := by
    simp [addUnique]
  rw [this]
  exact htail rest (fun g hg => List.mem_cons_of_mem g0 hg)

/-- C1 counterexample: hoisting removes only the *first* occurrence of the
nearest layout's route prefix, so with root `_layout.tsx`, `a/_layout.tsx`
and `a/a/b.tsx`, the view hoisted under the layout whose route is `a` keeps
the route string `a/b` — which does retain that layout's route (plus `/`)
as a prefix, refuting the claim's general invariant. -/
theorem claim1_counterexample :
    getRoutes devEnv defOpts ["./_layout.tsx", "./a/_layout.tsx", "./a/a/b.tsx"] =
      .ok (some
        ⟨"./_layout.tsx", "", none,
          [⟨"./_sitemap.tsx", "_sitemap", none, [],
            some ["./_layout.tsx", "expo-router/build/views/Sitemap.js"], true, true⟩,
           ⟨"./+not-found.tsx", "+not-found", some [⟨"+not-found", true, true⟩], [],
            some ["./_layout.tsx", "expo-router/build/views/Unmatched.js"], true, true⟩,
           ⟨"./a/_layout.tsx", "a", none,
             [⟨"./a/a/b.tsx", "a/b", none, [],
               some ["./_layout.tsx", "./a/_layout.tsx", "./a/a/b.tsx"],
               false, false⟩],
             none, false, false⟩],
          none, false, false⟩) ∧
    strStartsWith "a/b" ("a" ++ "/") = true := ⟨rfl, rfl⟩

/-- C1 (amended): for the enumeration root `_layout.tsx`, `a/_layout.tsx`,
`a/b.tsx`, `getRoutes` returns the root layout whose children contain the
layout for `a` with route rewritten to `a`, whose children contain the view
for `a/b.tsx` with route string `b` (not `a/b`).  (The claim's general
invariant — that no node's route retains its nearest ancestor layout's
route as a prefix — fails, see the counterexample: hoisting strips only the
first occurrence of `ancestorRoute + "/"`.) -/
theorem claim1_hoisting :
    getRoutes devEnv defOpts ["./_layout.tsx", "./a/_layout.tsx", "./a/b.tsx"] =
      .ok (some
        ⟨"./_layout.tsx", "", none,
          [⟨"./_sitemap.tsx", "_sitemap", none, [],
            some ["./_layout.tsx", "expo-router/build/views/Sitemap.js"], true, true⟩,
           ⟨"./+not-found.tsx", "+not-found", some [⟨"+not-found", true, true⟩], [],
            some ["./_layout.tsx", "expo-router/build/views/Unmatched.js"], true, true⟩,
           ⟨"./a/_layout.tsx", "a", none,
             [⟨"./a/b.tsx", "b", none, [],
               some ["./_layout.tsx", "./a/_layout.tsx", "./a/b.tsx"],
               false, false⟩],
             none, false, false⟩],
          none, false, false⟩) := rfl

/-- C2 counterexample: a file set with exactly one root layout and zero
views does *not* make `getRoutes` return null — `hasLayout` alone keeps the
result non-null (a tree with the injected `+not-found` child is returned,
without any sitemap option). -/
theorem claim2_counterexample :
    getRoutes devEnv defOpts ["./_layout.tsx"] ≠ .ok none := by
  rw [show getRoutes devEnv defOpts ["./_layout.tsx"] = .ok (some
    ⟨"./_layout.tsx", "", none,
      [⟨"./+not-found.tsx", "+not-found", some [⟨"+not-found", true, true⟩], [],
        some ["./_layout.tsx", "expo-router/build/views/Unmatched.js"], true, true⟩],
      none, false, false⟩) from rfl]
  simp

/-- C2 (amended): with exactly one root layout and zero views, `getRoutes`
returns a non-null tree whether or not `unstable_alwaysIncludeSitemap` is
set (the option only adds the sitemap child); and in general `getRoutes`
returns null exactly when neither a layout nor a view route was found. -/
theorem claim2_null_exactly_when_empty :
    getRoutes devEnv defOpts ["./_layout.tsx"] = .ok (some
      ⟨"./_layout.tsx", "", none,
        [⟨"./+not-found.tsx", "+not-found", some [⟨"+not-found", true, true⟩], [],
          some ["./_layout.tsx", "expo-router/build/views/Unmatched.js"], true, true⟩],
        none, false, false⟩) ∧
    getRoutes devEnv sitemapOpts ["./_layout.tsx"] = .ok (some
      ⟨"./_layout.tsx", "", none,
        [⟨"./_sitemap.tsx", "_sitemap", none, [],
          some ["./_layout.tsx", "expo-router/build/views/Sitemap.js"], true, true⟩,
         ⟨"./+not-found.tsx", "+not-found", some [⟨"+not-found", true, true⟩], [],
          some ["./_layout.tsx", "expo-router/build/views/Unmatched.js"], true, true⟩],
        none, false, false⟩) ∧
    ∀ env opts files, getRoutes env opts files = .ok none ↔
      ∃ st, getDirectoryTree env opts files = .ok st ∧
        st.hasLayout = false ∧ st.hasRoutes = false := by
  refine ⟨rfl, rfl, ?_⟩
  intro env opts files
  constructor
  · intro h
    unfold getRoutes at h
    rw [bind_ok_iff] at h
    obtain ⟨st, hst, h⟩ := h
    by_cases hc : (!st.hasLayout && !st.hasRoutes) = true
    · refine ⟨st, hst, ?_, ?_⟩ <;>
        · rcases Bool.and_eq_true _ _ ▸ hc with ⟨h1, h2⟩
          simp_all
    · rw [if_neg hc] at h
      exfalso
      have hl : st.directory.layout.isSome = true :=
        getDirectoryTree_layout_isSome hst
      have hl2 : (appendNotFoundRoute (if st.hasRoutes || opts.unstable_alwaysIncludeSitemap then
          appendSitemapRoute st.directory else st.directory)).layout.isSome = true := by
        rw [appendNotFoundRoute_layout]
        split
        · rw [appendSitemapRoute_layout]; exact hl
        · exact hl
      exact hoistRoot_layout_ne_ok_none hl2 h
  · rintro ⟨st, hst, hL, hR⟩
    unfold getRoutes
    rw [bind_ok_iff]
    refine ⟨st, hst, ?_⟩
    rw [hL, hR]
    rfl

/-- C2 witness: the empty enumeration has neither layout nor view, and the
theorem's equivalence yields the null result. -/
theorem claim2_witness : getRoutes devEnv defOpts ([] : List String) = .ok none :=
  (claim2_null_exactly_when_empty.2.2 devEnv defOpts []).mpr
    ⟨⟨false, false, ⟨some [some defaultRootLayout], [], []⟩⟩, rfl, rfl, rfl⟩

/-- C3: conflict policy for two enumerated files resolving to the same
`(directory, name, specificity-rank)` slot. Layout files always raise a
conflict error regardless of mode; view files raise a conflict error only
outside production mode; in production mode processing the
later-enumerated view file always succeeds and leaves the slot holding
that file's node (last-write-wins by enumeration order). -/
theorem claim3_conflict_policy :
    (∀ (env : Env) (opts : Options) (e fi : String) (path : List String)
        (rank : Nat) (pre mid post : List String),
      mapsLayoutTo env opts e path rank →
      mapsLayoutTo env opts fi path rank →
      isErr (getDirectoryTree env opts (pre ++ e :: (mid ++ fi :: post))) = true) ∧
    (∀ (env : Env) (opts : Options) (e fi : String) (path : List String)
        (nm : String) (rank : Nat) (pre mid post : List String),
      env.production = false →
      mapsViewTo env opts e path nm rank →
      mapsViewTo env opts fi path nm rank →
      isErr (getDirectoryTree env opts (pre ++ e :: (mid ++ fi :: post))) = true) ∧
    (∀ (env : Env) (opts : Options) (st : BuildState) (fi : String)
        (path : List String) (nm : String) (rank : Nat),
      env.production = true →
      mapsViewTo env opts fi path nm rank →
      ∃ st', processFile env opts st fi = .ok st' ∧
        viewSlot st'.directory path nm rank = some (mkFileRouteNode fi nm)) := by
  refine ⟨?_, ?_, ?_⟩
  · intro env opts e fi path rank pre mid post hme hmf
    rw [getDirectoryTree_isErr]
    exact foldlM_conflict
      (fun s s' hs => processFile_layout_occupies hme hs)
      (fun s a s' hs hq => by
        obtain ⟨n, hn⟩ := Option.isSome_iff_exists.mp hq
        exact (processFile_slots_mono hs).1 path rank n hn)
      (fun s hq => by
        obtain ⟨n, hn⟩ := Option.isSome_iff_exists.mp hq
        exact processFile_layout_conflict hmf hn)
      pre mid post ⟨false, false, emptyDir⟩
  · intro env opts e fi path nm rank pre mid post hprod hme hmf
    rw [getDirectoryTree_isErr]
    exact foldlM_conflict
      (fun s s' hs => processFile_view_occupies hme hs)
      (fun s a s' hs hq => by
        obtain ⟨n, hn⟩ := Option.isSome_iff_exists.mp hq
        exact (processFile_slots_mono hs).2 path nm rank n hn)
      (fun s hq => by
        obtain ⟨n, hn⟩ := Option.isSome_iff_exists.mp hq
        exact processFile_view_conflict hprod hmf hn)
      pre mid post ⟨false, false, emptyDir⟩
  · intro env opts st fi path nm rank hprod hmf
    exact processFile_view_production hprod hmf

/-- C3 witness: two root layout files conflict in development mode; two
root view files of the same name conflict in development mode; in
production mode the later view file is processed successfully and owns the
slot. -/
theorem claim3_witness :
    isErr (getDirectoryTree devEnv defOpts
      ([] ++ "./_layout.tsx" :: ([] ++ "./_layout.js" :: []))) = true ∧
    isErr (getDirectoryTree devEnv defOpts
      ([] ++ "./a.tsx" :: ([] ++ "./a.js" :: []))) = true ∧
    ∃ st', processFile prodEnv defOpts ⟨false, false, emptyDir⟩ "./a.js" =
        .ok st' ∧
      viewSlot st'.directory [] "a" 0 = some (mkFileRouteNode "./a.js" "a") :=
  ⟨claim3_conflict_policy.1 devEnv defOpts "./_layout.tsx" "./_layout.js"
      [] 0 [] [] []
      ⟨rfl, _, _, rfl, by decide, rfl, rfl, rfl, "_layout.tsx", by decide, rfl⟩
      ⟨rfl, _, _, rfl, by decide, rfl, rfl, rfl, "_layout.js", by decide, rfl⟩,
   claim3_conflict_policy.2.1 devEnv defOpts "./a.tsx" "./a.js"
      [] "a" 0 [] [] [] rfl
      ⟨rfl, _, _, rfl, by decide, rfl, rfl, rfl, rfl, rfl, "a.tsx", by decide, rfl⟩
      ⟨rfl, _, _, rfl, by decide, rfl, rfl, rfl, rfl, rfl, "a.js", by decide, rfl⟩,
   claim3_conflict_policy.2.2 prodEnv defOpts ⟨false, false, emptyDir⟩
      "./a.js" [] "a" 0 rfl
      ⟨rfl, _, _, rfl, by decide, rfl, rfl, rfl, rfl, rfl, "a.js", by decide, rfl⟩⟩

/-- C6: for every file set containing at least one view file, a returned
tree contains a `_sitemap` child and a `+not-found` child of the root,
even when neither was authored, and the `+not-found` child carries
`dynamic = [{name: '+not-found', deep: true, notFound: true}]`. -/
theorem claim6_synthetic_routes :
    ∀ (env : Env) (opts : Options) (files : List String) (t : RouteNode),
      (∃ f ∈ files, isViewFile env opts f = true) →
      getRoutes env opts files = .ok (some t) →
      (∃ c ∈ t.children, c.route = "_sitemap") ∧
      (∃ c ∈ t.children, c.route = "+not-found" ∧
        c.dynamic = some [⟨"+not-found", true, true⟩]) := by
  intro env opts files t hview hok
  obtain ⟨f, hf, hvf⟩ := hview
  obtain ⟨st, hst, -⟩ := bind_ok_iff.mp hok
  have hR : st.hasRoutes = true := getDirectoryTree_hasRoutes hf hvf hst
  have hrun : getRoutes env opts files =
      hoistRoutesToNearestLayout
        (appendNotFoundRoute (appendSitemapRoute st.directory)) opts := by
    rw [getRoutes_run hst (by rw [hR]; simp), if_pos (by rw [hR]; simp)]
  rw [hrun] at hok
  have hnamed : rootViewsNamed
      (appendNotFoundRoute (appendSitemapRoute st.directory)) :=
    appendNotFoundRoute_views_named
      (appendSitemapRoute_views_named (getDirectoryTree_inv hst))
  have hsm : (assocGet (appendNotFoundRoute
      (appendSitemapRoute st.directory)).views "_sitemap").isSome = true :=
    appendNotFoundRoute_keeps (by decide) (appendSitemapRoute_has st.directory)
  have hnf : (assocGet (appendNotFoundRoute
      (appendSitemapRoute st.directory)).views "+not-found").isSome = true :=
    appendNotFoundRoute_has _
  obtain ⟨arr, views, subs, L, vc, sc, hd2, hL, hvc, hsc, ht⟩ :=
    hoistRoot_ok_elim hok
  rw [hd2] at hnamed hsm hnf
  obtain ⟨ns1, hns1⟩ := Option.isSome_iff_exists.mp hsm
  obtain ⟨ns2, hns2⟩ := Option.isSome_iff_exists.mp hnf
  have hmem1 : ("_sitemap", ns1) ∈ views := assocGet_mem hns1
  have hmem2 : ("+not-found", ns2) ∈ views := assocGet_mem hns2
  obtain ⟨r1, c1, hr1, hc1, hcr1, hcd1⟩ := hoistViews_member hvc hmem1
  obtain ⟨r2, c2, hr2, hc2, hcr2, hcd2⟩ := hoistViews_member hvc hmem2
  have hr1route : r1.route = "_sitemap" := by
    obtain ⟨i, hi⟩ := getSparse_of_mem (mem_of_getLastQ (getMostSpecific_ok_elim hr1))
    refine hnamed "_sitemap" i r1 ?_
    show getSparse ((assocGet views "_sitemap").getD []) i = some r1
    have hns1' : assocGet views "_sitemap" = some ns1 := hns1
    rw [hns1']
    exact hi
  have hr2route : r2.route = "+not-found" := by
    obtain ⟨i, hi⟩ := getSparse_of_mem (mem_of_getLastQ (getMostSpecific_ok_elim hr2))
    refine hnamed "+not-found" i r2 ?_
    show getSparse ((assocGet views "+not-found").getD []) i = some r2
    have hns2' : assocGet views "+not-found" = some ns2 := hns2
    rw [hns2']
    exact hi
  have ht1 : c1.route = "_sitemap" := by
    rw [hcr1, hr1route, hoistPtr_id (by decide)]
  have ht2 : c2.route = "+not-found" := by
    rw [hcr2, hr2route, hoistPtr_id (by decide)]
  have ht2d : c2.dynamic = some [⟨"+not-found", true, true⟩] := by
    rw [hcd2, hr2route, hoistPtr_id (by decide)]
    rfl
  have hch : t.children = L.children ++ vc ++ sc := by
    rw [ht]
    rfl
  constructor
  · exact ⟨c1, by
      rw [hch]
      exact List.mem_append_left _ (List.mem_append_right _ hc1), ht1⟩
  · exact ⟨c2, by
      rw [hch]
      exact List.mem_append_left _ (List.mem_append_right _ hc2), ht2, ht2d⟩

/-- C6 witness: enumerating only the view `a.tsx` yields a tree whose root
children include the injected `_sitemap` and `+not-found` nodes. -/
theorem claim6_witness :
    (∃ f ∈ ["./a.tsx"], isViewFile devEnv defOpts f = true) ∧
    ∃ t, getRoutes devEnv defOpts ["./a.tsx"] = .ok (some t) ∧
      (∃ c ∈ t.children, c.route = "_sitemap") ∧
      (∃ c ∈ t.children, c.route = "+not-found" ∧
        c.dynamic = some [⟨"+not-found", true, true⟩]) :=
  ⟨⟨"./a.tsx", List.mem_singleton_self _, rfl⟩,
   ⟨"./_layout.tsx", "", none,
      [⟨"./a.tsx", "a", none, [],
          some ["expo-router/build/views/Navigator.js", "./a.tsx"], false, false⟩,
       ⟨"./_sitemap.tsx", "_sitemap", none, [],
          some ["expo-router/build/views/Navigator.js",
            "expo-router/build/views/Sitemap.js"], true, true⟩,
       ⟨"./+not-found.tsx", "+not-found", some [⟨"+not-found", true, true⟩], [],
          some ["expo-router/build/views/Navigator.js",
            "expo-router/build/views/Unmatched.js"], true, true⟩],
      none, true, false⟩,
   rfl,
   claim6_synthetic_routes devEnv defOpts ["./a.tsx"] _
     ⟨"./a.tsx", List.mem_singleton_self _, rfl⟩ rfl⟩

/-- C9: whenever `getRoutes` returns a non-null tree, the returned root
node is a layout node (backed by a `_layout.`-named context key); and if
the enumeration contains no file placing a layout at the root, the
synthetic default root layout — contextKey `./_layout.tsx`, generated flag
set, empty route — becomes the root. -/
theorem claim9_root_layout :
    (∀ (env : Env) (opts : Options) (files : List String) (t : RouteNode),
      getRoutes env opts files = .ok (some t) →
      isLayoutContextKey t.contextKey = true) ∧
    (∀ (env : Env) (opts : Options) (files : List String) (t : RouteNode),
      (∀ f ∈ files, placesLayoutAtRoot env opts f = false) →
      getRoutes env opts files = .ok (some t) →
      t.contextKey = "./_layout.tsx" ∧ t.generated = true ∧ t.route = "") := by
  constructor
  · intro env opts files t hok
    obtain ⟨st, hst, -⟩ := bind_ok_iff.mp hok
    by_cases hcond : (!st.hasLayout && !st.hasRoutes) = true
    · have hnone : getRoutes env opts files = .ok none := by
        unfold getRoutes
        rw [hst, ok_bind, if_pos hcond]
      rw [hnone] at hok
      exact Option.noConfusion (Except.ok.inj hok)
    · have hflag : (!st.hasLayout && !st.hasRoutes) = false := by
        simpa using hcond
      rw [getRoutes_run hst hflag] at hok
      obtain ⟨arr, views, subs, L, vc, sc, hd2, hL, hvc, hsc, ht⟩ :=
        hoistRoot_ok_elim hok
      have hlay : st.directory.layout = some arr := by
        have h1 : (appendNotFoundRoute
            (if st.hasRoutes || opts.unstable_alwaysIncludeSitemap then
              appendSitemapRoute st.directory else st.directory)).layout =
            some arr := by
          rw [hd2]
          rfl
        rw [appendNotFoundRoute_layout] at h1
        split at h1
        · rw [appendSitemapRoute_layout] at h1
          exact h1
        · exact h1
      obtain ⟨i, hi⟩ :=
        getSparse_of_mem (mem_of_getLastQ (getMostSpecific_ok_elim hL))
      have hctx : isLayoutContextKey L.contextKey = true := by
        refine getDirectoryTree_rootLayoutInv hst i L ?_
        rw [hlay]
        exact hi
      rw [ht]
      exact hctx
  · intro env opts files t hall hok
    obtain ⟨st, hst, -⟩ := bind_ok_iff.mp hok
    have hsynth : st.directory.layout = some [some defaultRootLayout] :=
      getDirectoryTree_synthesized hall hst
    by_cases hcond : (!st.hasLayout && !st.hasRoutes) = true
    · have hnone : getRoutes env opts files = .ok none := by
        unfold getRoutes
        rw [hst, ok_bind, if_pos hcond]
      rw [hnone] at hok
      exact Option.noConfusion (Except.ok.inj hok)
    · have hflag : (!st.hasLayout && !st.hasRoutes) = false := by
        simpa using hcond
      rw [getRoutes_run hst hflag] at hok
      obtain ⟨arr, views, subs, L, vc, sc, hd2, hL, hvc, hsc, ht⟩ :=
        hoistRoot_ok_elim hok
      have hlay : st.directory.layout = some arr := by
        have h1 : (appendNotFoundRoute
            (if st.hasRoutes || opts.unstable_alwaysIncludeSitemap then
              appendSitemapRoute st.directory else st.directory)).layout =
            some arr := by
          rw [hd2]
          rfl
        rw [appendNotFoundRoute_layout] at h1
        split at h1
        · rw [appendSitemapRoute_layout] at h1
          exact h1
        · exact h1
      rw [hsynth] at hlay
      obtain rfl := Option.some.inj hlay
      have hLd : defaultRootLayout = L := Except.ok.inj hL
      rw [ht, ← hLd]
      exact ⟨rfl, rfl, rfl⟩

/-- C9 witness: the single view enumeration synthesizes the default root
layout as the returned root. -/
theorem claim9_witness :
    isLayoutContextKey
      (⟨"./_layout.tsx", "", none,
        [⟨"./a.tsx", "a", none, [],
            some ["expo-router/build/views/Navigator.js", "./a.tsx"],
            false, false⟩,
         ⟨"./_sitemap.tsx", "_sitemap", none, [],
            some ["expo-router/build/views/Navigator.js",
              "expo-router/build/views/Sitemap.js"], true, true⟩,
         ⟨"./+not-found.tsx", "+not-found", some [⟨"+not-found", true, true⟩],
            [],
            some ["expo-router/build/views/Navigator.js",
              "expo-router/build/views/Unmatched.js"], true, true⟩],
        none, true, false⟩ : RouteNode).contextKey = true ∧
    ((⟨"./_layout.tsx", "", none,
        [⟨"./a.tsx", "a", none, [],
            some ["expo-router/build/views/Navigator.js", "./a.tsx"],
            false, false⟩,
         ⟨"./_sitemap.tsx", "_sitemap", none, [],
            some ["expo-router/build/views/Navigator.js",
              "expo-router/build/views/Sitemap.js"], true, true⟩,
         ⟨"./+not-found.tsx", "+not-found", some [⟨"+not-found", true, true⟩],
            [],
            some ["expo-router/build/views/Navigator.js",
              "expo-router/build/views/Unmatched.js"], true, true⟩],
        none, true, false⟩ : RouteNode).contextKey = "./_layout.tsx" ∧
      (⟨"./_layout.tsx", "", none,
        [⟨"./a.tsx", "a", none, [],
            some ["expo-router/build/views/Navigator.js", "./a.tsx"],
            false, false⟩,
         ⟨"./_sitemap.tsx", "_sitemap", none, [],
            some ["expo-router/build/views/Navigator.js",
              "expo-router/build/views/Sitemap.js"], true, true⟩,
         ⟨"./+not-found.tsx", "+not-found", some [⟨"+not-found", true, true⟩],
            [],
            some ["expo-router/build/views/Navigator.js",
              "expo-router/build/views/Unmatched.js"], true, true⟩],
        none, true, false⟩ : RouteNode).generated = true ∧
      (⟨"./_layout.tsx", "", none,
        [⟨"./a.tsx", "a", none, [],
            some ["expo-router/build/views/Navigator.js", "./a.tsx"],
            false, false⟩,
         ⟨"./_sitemap.tsx", "_sitemap", none, [],
            some ["expo-router/build/views/Navigator.js",
              "expo-router/build/views/Sitemap.js"], true, true⟩,
         ⟨"./+not-found.tsx", "+not-found", some [⟨"+not-found", true, true⟩],
            [],
            some ["expo-router/build/views/Navigator.js",
              "expo-router/build/views/Unmatched.js"], true, true⟩],
        none, true, false⟩ : RouteNode).route = "") :=
  ⟨claim9_root_layout.1 devEnv defOpts ["./a.tsx"] _ rfl,
   claim9_root_layout.2 devEnv defOpts ["./a.tsx"] _ (by decide) rfl⟩

/-- C7 counterexample: the file `(a,b)/x.tsx` is *not* placed at leaves
`a/x` and `b/x`: group expansion keeps the parentheses, so the builder owns
the file under subdirectories `(a)` and `(b)` (and under the view name
`(a,b)/x` derived from the unexpanded path) — there are no `a` or `b`
subdirectories at all. -/
theorem claim7_counterexample :
    getDirectoryTree devEnv defOpts ["./(a,b)/x.tsx"] =
      .ok ⟨true, false,
        ⟨some [some ⟨"./_layout.tsx", "", none, [],
            some ["expo-router/build/views/Navigator.js"], true, false⟩],
          [],
          [("(a)", ⟨none, [("(a,b)/x",
              [some ⟨"./(a,b)/x.tsx", "(a,b)/x", none, [],
                some ["./(a,b)/x.tsx"], false, false⟩])], []⟩),
           ("(b)", ⟨none, [("(a,b)/x",
              [some ⟨"./(a,b)/x.tsx", "(a,b)/x", none, [],
                some ["./(a,b)/x.tsx"], false, false⟩])], []⟩)]⟩⟩ ∧
    lookupDir
      ⟨some [some ⟨"./_layout.tsx", "", none, [],
          some ["expo-router/build/views/Navigator.js"], true, false⟩],
        [],
        [("(a)", ⟨none, [("(a,b)/x",
            [some ⟨"./(a,b)/x.tsx", "(a,b)/x", none, [],
              some ["./(a,b)/x.tsx"], false, false⟩])], []⟩),
         ("(b)", ⟨none, [("(a,b)/x",
            [some ⟨"./(a,b)/x.tsx", "(a,b)/x", none, [],
              some ["./(a,b)/x.tsx"], false, false⟩])], []⟩)]⟩
      ["a"] = none := ⟨rfl, rfl⟩

/-- C7 (amended): the file `(a,b)/x.tsx` produces exactly two placement
leaves, in the subdirectories `(a)` and `(b)` of the root (the group
parentheses are kept), each holding the node under the view name
`(a,b)/x`; both placements are the same node and in particular share the
contextKey `./(a,b)/x.tsx`. -/
theorem claim7_group_expansion :
    extrapolateGroups "(a,b)/x.tsx" [] = .ok ["(a)/x.tsx", "(b)/x.tsx"] ∧
    ∃ st, getDirectoryTree devEnv defOpts ["./(a,b)/x.tsx"] = .ok st ∧
      st.directory.subdirectories.map Prod.fst = ["(a)", "(b)"] ∧
      viewSlot st.directory ["(a)"] "(a,b)/x" 0 =
        some ⟨"./(a,b)/x.tsx", "(a,b)/x", none, [],
          some ["./(a,b)/x.tsx"], false, false⟩ ∧
      viewSlot st.directory ["(b)"] "(a,b)/x" 0 =
        some ⟨"./(a,b)/x.tsx", "(a,b)/x", none, [],
          some ["./(a,b)/x.tsx"], false, false⟩ := by
  refine ⟨rfl, ⟨true, false,
    ⟨some [some ⟨"./_layout.tsx", "", none, [],
        some ["expo-router/build/views/Navigator.js"], true, false⟩],
      [],
      [("(a)", ⟨none, [("(a,b)/x",
          [some ⟨"./(a,b)/x.tsx", "(a,b)/x", none, [],
            some ["./(a,b)/x.tsx"], false, false⟩])], []⟩),
       ("(b)", ⟨none, [("(a,b)/x",
          [some ⟨"./(a,b)/x.tsx", "(a,b)/x", none, [],
            some ["./(a,b)/x.tsx"], false, false⟩])], []⟩)]⟩⟩,
    rfl, rfl, rfl, rfl⟩

/-- C4: on a candidate array whose final slot is populated (the shape of
every array the builder passes in), `getMostSpecific` returns the candidate
at the highest populated index — the final slot — whenever index 0 is
populated, and raises the missing-fallback-platform-route error exactly
when index 0 is a hole; in that case a higher populated index necessarily
exists (the array has length at least 2). -/
theorem claim4_getMostSpecific (routes : List (Option RouteNode)) (r : RouteNode)
    (hlast : routes.getLast? = some (some r)) :
    getSparse routes (routes.length - 1) = some r ∧
    ((getSparse routes 0).isSome = true → getMostSpecific routes = .ok r) ∧
    ((getSparse routes 0).isSome = false →
      getMostSpecific routes =
        .error (r.contextKey ++ " does not contain a fallback platform route") ∧
      2 ≤ routes.length) := by
  have h1 : getSparse routes (routes.length - 1) = some r := by
    unfold getSparse
    rw [List.get?_eq_getElem?, ← List.getLast?_eq_getElem?, hlast]
    rfl
  refine ⟨h1, ?_, ?_⟩
  · intro h0
    simp only [getMostSpecific, hlast]
    rw [if_pos h0]
  · intro h0
    have hlen : 2 ≤ routes.length := by
      have hne : routes ≠ [] := by
        intro h
        rw [h] at hlast
        simp at hlast
      have hpos : 1 ≤ routes.length := List.length_pos.mpr hne
      by_contra hc
      have hone : routes.length = 1 := by omega
      rw [hone] at h1
      simp only [Nat.sub_self] at h1
      rw [h1] at h0
      simp at h0
    refine ⟨?_, hlen⟩
    simp only [getMostSpecific, hlast]
    rw [if_neg (by simp [h0])]

/-- C4 witness: concrete two-slot arrays exercise both the selection and
the missing-fallback error through the theorem. -/
theorem claim4_witness :
    getMostSpecific [some sitemapNode, some notFoundNode] = .ok notFoundNode ∧
    getMostSpecific [none, some notFoundNode] =
      .error ("./+not-found.tsx does not contain a fallback platform route") := by
  constructor
  · exact (claim4_getMostSpecific [some sitemapNode, some notFoundNode]
      notFoundNode rfl).2.1 (by decide)
  · exact ((claim4_getMostSpecific [none, some notFoundNode]
      notFoundNode rfl).2.2 (by decide)).1

/-- C5 counterexample: with platform extensions enabled (platform `ios`),
a file with no platform suffix gets specificity `0`, while the middle rank
— the one the `native` identifier gets — is `1`; the claim's final clause
(`no platform suffix gets the middle rank`) is therefore false. -/
theorem claim5_counterexample :
    (getFileMeta devEnv peOpts "./index.tsx").map FileMeta.specificity = .ok 0 ∧
    (getFileMeta devEnv peOpts "./index.native.tsx").map FileMeta.specificity = .ok 1 ∧
    (0 : Int) ≠ 1 := ⟨rfl, rfl, by decide⟩

/-- C5 (amended): with platform extensions enabled, a base name whose last
dot-segment equals the current platform gets the highest rank 2; the
`native` identifier, when it is not itself the current platform and the
current platform is not `web`, gets the middle rank 1; any other known
platform identifier gets the skip sentinel −1; and a file with no platform
suffix gets the base rank 0 — the lowest rank, not the middle one. -/
theorem claim5_specificity (env : Env) (opts : Options) (key : String)
    (meta : FileMeta) (platform : String)
    (hpe : opts.unstable_platformExtensions = true)
    (hplat : platform = (splitStr '.' (removeSupportedExtensions
      ((splitStr '/' (stripDotSlash key)).getLastD ""))).getLastD "")
    (hok : getFileMeta env opts key = .ok meta) :
    (validPlatforms.contains platform = true →
      (platform = env.platformOS → meta.specificity = 2) ∧
      (platform ≠ env.platformOS → platform = "native" → env.platformOS ≠ "web" →
        meta.specificity = 1) ∧
      (platform ≠ env.platformOS → ¬(platform = "native" ∧ env.platformOS ≠ "web") →
        meta.specificity = -1)) ∧
    (validPlatforms.contains platform = false → meta.specificity = 0) := by
  simp only [getFileMeta] at hok
  rw [← hplat] at hok
  split at hok
  · split at hok <;> exact absurd hok (by simp)
  · split at hok
    · rename_i hcond
      rw [hpe, Bool.true_and] at hcond
      constructor
      · intro hvp
        refine ⟨?_, ?_, ?_⟩
        · intro hos
          rw [if_pos hos] at hok
          rw [← Except.ok.inj hok]
        · intro hne hnat hweb
          rw [if_neg hne, if_pos (show (decide (platform = "native") &&
            decide (env.platformOS ≠ "web")) = true by simp [hnat, hweb])] at hok
          rw [← Except.ok.inj hok]
        · intro hne hno
          rw [if_neg hne, if_neg (show ¬(decide (platform = "native") &&
            decide (env.platformOS ≠ "web")) = true by
              rw [Bool.and_eq_true, decide_eq_true_eq, decide_eq_true_eq]
              exact hno)] at hok
          rw [← Except.ok.inj hok]
      · intro hvp
        rw [hvp] at hcond
        simp at hcond
    · split at hok
      · rename_i hcond hvp2
        rw [hpe, Bool.true_and, hvp2] at hcond
        simp at hcond
      · rename_i hcond hvp2
        constructor
        · intro hvp
          rw [hvp] at hvp2
          simp at hvp2
        · intro _
          rw [← Except.ok.inj hok]

/-- C5 witness: a known platform that is neither current nor `native`
(`android` on an `ios` environment) gets the skip sentinel, via the
theorem. -/
theorem claim5_witness :
    getFileMeta devEnv peOpts "./a.android.tsx" =
      .ok ⟨"a.android.tsx", "a", -1, ["a.android.tsx"], "", "a.android.tsx",
        false, false, "a.android"⟩ ∧
    (⟨"a.android.tsx", "a", -1, ["a.android.tsx"], "", "a.android.tsx",
        false, false, "a.android"⟩ : FileMeta).specificity = -1 := by
  refine ⟨rfl, ?_⟩
  have h := claim5_specificity devEnv peOpts "./a.android.tsx"
    ⟨"a.android.tsx", "a", -1, ["a.android.tsx"], "", "a.android.tsx",
      false, false, "a.android"⟩ "android" rfl rfl rfl
  exact (h.1 rfl).2.2 (by decide) (by decide)

/-- C10 witness: the segment `(a, a)` — duplicate group names up to
whitespace — expands without error to the single path `(a)/x.tsx`. -/
theorem claim10_witness :
    extrapolateGroups "(a, a)/x.tsx" [] = .ok ["(a)/x.tsx"] := by
  have h := claim10_trim_equal_groups "(a, a)/x.tsx" "a, a" "a" ["a", " a"]
    rfl rfl (by decide) (by decide) (by decide)
    (by
      intro m' hm'
      rw [show matchGroupName (replaceFirst "(a, a)/x.tsx" "a, a" "a") =
        some "a" from rfl] at hm'
      injection hm' with h'
      subst h'
      decide)
  exact h

end ExpoRouter
